import Mathlib

/-!
Verification of the record-linkage and identity-resolution engine of the
passenger-travel pipeline.  The definitions below are a shallow embedding of
the Python source files `src/name_utils.py` and `src/merge_csv.py`:
pure string functions become Lean functions on `String` / `List Char`,
pandas DataFrames become lists of records (one structure field per column the
engine reads or writes, plus one opaque `other` field standing for the
remaining canonical columns), and the audit-file side effect becomes an
explicit returned list of `SuspiciousRec` values.
-/

namespace DyuminOneLove

/-! ## Python string primitives -/

/-- The six ASCII whitespace characters stripped by Python `str.strip()`. -/
def pyIsSpace (c : Char) : Bool :=
  c = ' ' || c = '\t' || c = '\n' || c = '\r' || c = '\x0b' || c = '\x0c'

/-- Python `str.strip()`: remove leading and trailing whitespace. -/
def pyStrip (s : String) : String :=
  ⟨((s.data.dropWhile pyIsSpace).reverse.dropWhile pyIsSpace).reverse⟩

/-- Python `str.upper()` restricted to the character ranges relevant to this
program: ASCII letters and the Cyrillic letters appearing in `RUS_TO_LAT`. -/
def pyUpper (c : Char) : Char :=
  if 'a' ≤ c && c ≤ 'z' then Char.ofNat (c.toNat - 32)
  else if 'а' ≤ c && c ≤ 'я' then Char.ofNat (c.toNat - 32)
  else if c = 'ё' then 'Ё'
  else c

/-- Python `str.islower()` restricted to the same character ranges. -/
def pyIsLower (c : Char) : Bool :=
  ('a' ≤ c && c ≤ 'z') || ('а' ≤ c && c ≤ 'я') || c = 'ё'

/-! ## `name_utils.py`: transliteration and name comparison -/

/-- The fixed Cyrillic→Latin character map `RUS_TO_LAT`. -/
def RUS_TO_LAT : List (Char × String) := [
  ('А', "A"), ('Б', "B"), ('В', "V"), ('Г', "G"), ('Д', "D"), ('Е', "E"), ('Ё', "E"),
  ('Ж', "Zh"), ('З', "Z"), ('И', "I"), ('Й', "Y"), ('К', "K"), ('Л', "L"), ('М', "M"),
  ('Н', "N"), ('О', "O"), ('П', "P"), ('Р', "R"), ('С', "S"), ('Т', "T"), ('У', "U"),
  ('Ф', "F"), ('Х', "Kh"), ('Ц', "Ts"), ('Ч', "Ch"), ('Ш', "Sh"), ('Щ', "Shch"),
  ('Ы', "Y"), ('Э', "E"), ('Ю', "Yu"), ('Я', "Ya"), ('Ь', ""), ('Ъ', "")
]

/-- One loop iteration of `rus_to_lat`: look the uppercased character up in
the map; a lowercase source character lowercases the digraph; characters not
in the map pass through unchanged. -/
def translitChar (ch : Char) : List Char :=
  match RUS_TO_LAT.lookup (pyUpper ch) with
  | some tr => if pyIsLower ch then tr.data.map Char.toLower else tr.data
  | none => [ch]

/-- `rus_to_lat`: transliterate Cyrillic to Latin character by character. -/
def rus_to_lat (s : String) : String :=
  ⟨(s.data.map translitChar).flatten⟩

/-- `normalize_name`: transliterate, drop every character that is not an
ASCII letter (`re.sub(r"[^a-zA-Z]", "", ...)`), lowercase the result. -/
def normalize_name (name : String) : String :=
  ⟨((rus_to_lat name).data.filter Char.isAlpha).map Char.toLower⟩

/-- `names_are_equivalent`: both canonical forms non-empty and one the
prefix of the other (`a_norm.startswith(b_norm) or b_norm.startswith(a_norm)`). -/
def names_are_equivalent (a b : String) : Bool :=
  let an := normalize_name a
  let bn := normalize_name b
  if an = "" || bn = "" then false
  else bn.data.isPrefixOf an.data || an.data.isPrefixOf bn.data

/-- The character class `[A-Za-zА-Яа-я]` of `name_completeness`. -/
def isNameLetter (c : Char) : Bool :=
  Char.isAlpha c || ('А' ≤ c && c ≤ 'Я') || ('а' ≤ c && c ≤ 'я')

/-- `name_completeness`: count of Latin/Cyrillic letters minus count of
periods, floored at zero (`max(score, 0)` is `Nat` truncated subtraction). -/
def name_completeness (name : String) : Nat :=
  (name.data.filter isNameLetter).length - (name.data.filter (fun c => c == '.')).length

/-! ### Basic lemmas about canonicalization -/

/-- Character-list version of `normalize_name`, used for reasoning. -/
def normChars (l : List Char) : List Char :=
  ((l.map translitChar).flatten.filter Char.isAlpha).map Char.toLower

theorem normalize_name_eq_normChars (s : String) :
    normalize_name s = ⟨normChars s.data⟩ := rfl

theorem normChars_append (a b : List Char) :
    normChars (a ++ b) = normChars a ++ normChars b := by
  simp [normChars]

theorem normChars_space {l : List Char} (h : ∀ c ∈ l, pyIsSpace c = true) :
    normChars l = [] := by
  induction l with
  | nil => rfl
  | cons c t ih =>
    have hc : pyIsSpace c = true := h c (by simp)
    have ht : normChars t = [] := ih (fun x hx => h x (by simp [hx]))
    have hmem : c ∈ [' ', '\t', '\n', '\r', '\x0b', '\x0c'] := by
      simpa [pyIsSpace, or_assoc] using hc
    have htr : translitChar c = [c] ∧ c.isAlpha = false := by
      fin_cases hmem <;> exact ⟨by decide, by decide⟩
    have hsplit : normChars (c :: t) = normChars [c] ++ normChars t := by
      rw [show c :: t = [c] ++ t from rfl, normChars_append]
    rw [hsplit, ht]
    simp [normChars, htr.1, htr.2]

/-- Stripping surrounding whitespace does not change the canonical form. -/
theorem normalize_name_pyStrip (s : String) :
    normalize_name (pyStrip s) = normalize_name s := by
  have hdecomp : s.data = s.data.takeWhile pyIsSpace ++
      (((s.data.dropWhile pyIsSpace).reverse.dropWhile pyIsSpace).reverse ++
        ((s.data.dropWhile pyIsSpace).reverse.takeWhile pyIsSpace).reverse) := by
    have h1 : s.data.takeWhile pyIsSpace ++ s.data.dropWhile pyIsSpace = s.data :=
      List.takeWhile_append_dropWhile pyIsSpace s.data
    have h2 : (s.data.dropWhile pyIsSpace).reverse.takeWhile pyIsSpace ++
        (s.data.dropWhile pyIsSpace).reverse.dropWhile pyIsSpace =
        (s.data.dropWhile pyIsSpace).reverse :=
      List.takeWhile_append_dropWhile pyIsSpace (s.data.dropWhile pyIsSpace).reverse
    have h3 : s.data.dropWhile pyIsSpace =
        ((s.data.dropWhile pyIsSpace).reverse.dropWhile pyIsSpace).reverse ++
        ((s.data.dropWhile pyIsSpace).reverse.takeWhile pyIsSpace).reverse := by
      conv_lhs => rw [← List.reverse_reverse (s.data.dropWhile pyIsSpace), ← h2]
      rw [List.reverse_append]
    conv_lhs => rw [← h1, h3]
  have hpre : ∀ c ∈ s.data.takeWhile pyIsSpace, pyIsSpace c = true :=
    fun c hc => List.mem_takeWhile_imp hc
  have hpost : ∀ c ∈ ((s.data.dropWhile pyIsSpace).reverse.takeWhile pyIsSpace).reverse,
      pyIsSpace c = true := by
    intro c hc
    rw [List.mem_reverse] at hc
    exact List.mem_takeWhile_imp hc
  rw [normalize_name_eq_normChars, normalize_name_eq_normChars]
  have hstrip : (pyStrip s).data =
      ((s.data.dropWhile pyIsSpace).reverse.dropWhile pyIsSpace).reverse := rfl
  rw [hstrip]
  conv_rhs => rw [hdecomp]
  rw [normChars_append, normChars_append, normChars_space hpre, normChars_space hpost]
  simp

theorem isPrefixOf_self (l : List Char) : l.isPrefixOf l = true := by
  induction l with
  | nil => rfl
  | cons c t ih => simp [List.isPrefixOf, ih]

/-- If `x` is equivalent to `y` then `y` has non-empty canonical form, hence
is equivalent to itself. -/
theorem equiv_right_self {x y : String} (h : names_are_equivalent x y = true) :
    names_are_equivalent y y = true := by
  unfold names_are_equivalent at h ⊢
  by_cases hy : normalize_name y = ""
  · simp [hy] at h
  · simp [hy, isPrefixOf_self]

/-- Equivalence only looks at the stripped canonical form. -/
theorem equiv_pyStrip_left (x y : String) :
    names_are_equivalent (pyStrip x) y = names_are_equivalent x y := by
  unfold names_are_equivalent
  rw [normalize_name_pyStrip]

theorem uint32_le_iff_toNat_le {a b : UInt32} : a ≤ b ↔ a.toNat ≤ b.toNat := by
  rw [UInt32.le_def, BitVec.le_def]
  rfl

theorem char_toNat_ofNat_valid {n : Nat} (h : n.isValidChar) :
    (Char.ofNat n).toNat = n := by
  unfold Char.ofNat
  rw [dif_pos h]
  rfl

/-- ASCII lower-casing of an ASCII letter lands in `a`–`z`. -/
theorem toLower_isLower {c : Char} (h : c.isAlpha = true) :
    (Char.toLower c).isLower = true := by
  simp only [Char.isAlpha, Char.isUpper, Char.isLower, Bool.or_eq_true, Bool.and_eq_true,
    decide_eq_true_eq, ge_iff_le] at h
  unfold Char.toLower
  by_cases hc : Char.toNat c ≥ 65 ∧ Char.toNat c ≤ 90
  · rw [if_pos hc]
    have hvalid : Nat.isValidChar (Char.toNat c + 32) := Or.inl (by omega)
    have hval : (Char.ofNat (Char.toNat c + 32)).toNat = Char.toNat c + 32 :=
      char_toNat_ofNat_valid hvalid
    simp only [Char.isLower, Bool.and_eq_true, decide_eq_true_eq, ge_iff_le,
      uint32_le_iff_toNat_le]
    have h97 : (97 : UInt32).toNat = 97 := rfl
    have h122 : (122 : UInt32).toNat = 122 := rfl
    rw [h97, h122]
    have : (Char.ofNat (Char.toNat c + 32)).val.toNat = Char.toNat c + 32 := hval
    rw [this]
    omega
  · rw [if_neg hc]
    simp only [Char.isLower, Bool.and_eq_true, decide_eq_true_eq, ge_iff_le,
      uint32_le_iff_toNat_le]
    have h97 : (97 : UInt32).toNat = 97 := rfl
    have h122 : (122 : UInt32).toNat = 122 := rfl
    rw [h97, h122]
    rcases h with ⟨h1, h2⟩ | ⟨h1, h2⟩
    · exfalso
      rw [uint32_le_iff_toNat_le] at h1 h2
      exact hc ⟨h1, h2⟩
    · rw [uint32_le_iff_toNat_le] at h1 h2
      exact ⟨h1, h2⟩

/-- Every character of a canonical name is an ASCII lowercase letter. -/
theorem normalize_name_all_lower (s : String) :
    (normalize_name s).data.all Char.isLower = true := by
  rw [List.all_eq_true]
  intro c hc
  rw [normalize_name_eq_normChars] at hc
  simp only [normChars] at hc
  rw [List.mem_map] at hc
  obtain ⟨d, hd, hcd⟩ := hc
  rw [List.mem_filter] at hd
  subst hcd
  exact toLower_isLower hd.2

/-- Claim C7: `names_are_equivalent a b` is true iff both canonicalizations
are non-empty and one is a prefix of the other; equivalence is symmetric for
all inputs and reflexive for every name with non-empty canonicalization. -/
theorem claim_C7_equivalence_characterization :
    (∀ a b : String, names_are_equivalent a b = true ↔
      (normalize_name a ≠ "" ∧ normalize_name b ≠ "" ∧
        ((normalize_name a).data <+: (normalize_name b).data ∨
         (normalize_name b).data <+: (normalize_name a).data)))
    ∧ (∀ a b : String, names_are_equivalent a b = names_are_equivalent b a)
    ∧ (∀ n : String, normalize_name n ≠ "" → names_are_equivalent n n = true) := by
  refine ⟨?_, ?_, ?_⟩
  · intro a b
    unfold names_are_equivalent
    by_cases ha : normalize_name a = "" <;> by_cases hb : normalize_name b = "" <;>
      simp [ha, hb, List.isPrefixOf_iff_prefix, or_comm]
  · intro a b
    unfold names_are_equivalent
    by_cases ha : normalize_name a = "" <;> by_cases hb : normalize_name b = "" <;>
      simp [ha, hb, Bool.or_comm]
  · intro n hn
    unfold names_are_equivalent
    simp [hn, isPrefixOf_self]

/-- Witness for C7: the reflexivity part at the concrete name `"Anna"`. -/
theorem claim_C7_witness : names_are_equivalent "Anna" "Anna" = true :=
  claim_C7_equivalence_characterization.2.2 "Anna" (by decide)

/-- Claim C8: canonicalization transliterates Cyrillic with case-tracked
digraphs (Ж→Zh, Х→Kh, Щ→Shch; lowercase ж→zh), discards soft and hard signs,
strips every character that is not an ASCII letter, and lower-cases the
result; `canonicalize("Жданова") = "zhdanova"` and
`equivalent("Жданова", "ZHDANOVA")` is true. -/
theorem claim_C8_transliteration :
    rus_to_lat "Ж" = "Zh" ∧ rus_to_lat "Х" = "Kh" ∧ rus_to_lat "Щ" = "Shch" ∧
    rus_to_lat "ж" = "zh" ∧ rus_to_lat "Ь" = "" ∧ rus_to_lat "ъ" = "" ∧
    normalize_name "Жданова" = "zhdanova" ∧
    normalize_name "A.b-Я1" = "abya" ∧
    names_are_equivalent "Жданова" "ZHDANOVA" = true ∧
    (∀ s : String, (normalize_name s).data.all Char.isLower = true) :=
  ⟨by decide, by decide, by decide, by decide, by decide, by decide, by decide,
   by decide, by decide, normalize_name_all_lower⟩

/-! ## `merge_csv.py`: date normalization (`normalize_date`) -/

/-- Split a character list at every occurrence of `sep` (the separator
structure of the anchored strptime regexes; no separator yields one part). -/
def splitOnChar (sep : Char) : List Char → List (List Char)
  | [] => [[]]
  | c :: t =>
    match splitOnChar sep t with
    | [] => [[]]
    | p :: ps => if c = sep then [] :: p :: ps else (c :: p) :: ps

/-- Gregorian leap-year rule used by `datetime`. -/
def isLeapYear (y : Nat) : Bool := y % 4 == 0 && (y % 100 != 0 || y % 400 == 0)

/-- Number of days of month `m` in year `y` (as validated by `datetime`). -/
def daysInMonth (y m : Nat) : Nat :=
  if m = 2 then (if isLeapYear y then 29 else 28)
  else if m = 4 ∨ m = 6 ∨ m = 9 ∨ m = 11 then 30
  else 31

/-- Decimal value of a digit string. -/
def digitsToNat (l : List Char) : Nat :=
  l.foldl (fun acc c => acc * 10 + (c.toNat - 48)) 0

/-- The `%d` field of CPython `strptime`: one or two digits, value 1–31. -/
def parseDayField (l : List Char) : Option Nat :=
  if l.all Char.isDigit = true ∧ (l.length = 1 ∨ l.length = 2) ∧
      1 ≤ digitsToNat l ∧ digitsToNat l ≤ 31 then some (digitsToNat l) else none

/-- The `%m` field of CPython `strptime`: one or two digits, value 1–12. -/
def parseMonthField (l : List Char) : Option Nat :=
  if l.all Char.isDigit = true ∧ (l.length = 1 ∨ l.length = 2) ∧
      1 ≤ digitsToNat l ∧ digitsToNat l ≤ 12 then some (digitsToNat l) else none

/-- The `%Y` field of CPython `strptime`: exactly four digits; the year must
be at least `datetime.MINYEAR = 1`. -/
def parseYearField (l : List Char) : Option Nat :=
  if l.all Char.isDigit = true ∧ l.length = 4 ∧ 1 ≤ digitsToNat l
  then some (digitsToNat l) else none

/-- `datetime(y, m, d)` day-of-month validation. -/
def mkDate (y m d : Nat) : Option (Nat × Nat × Nat) :=
  if d ≤ daysInMonth y m then some (y, m, d) else none

/-- `datetime.strptime(v, "%d.%m.%Y")`. -/
def strptime_dmY (v : List Char) : Option (Nat × Nat × Nat) :=
  match splitOnChar '.' v with
  | [ds, ms, ys] =>
    match parseDayField ds, parseMonthField ms, parseYearField ys with
    | some d, some m, some y => mkDate y m d
    | _, _, _ => none
  | _ => none

/-- `datetime.strptime(v, "%Y<sep>%m<sep>%d")` for `sep` `'-'` or `'/'`. -/
def strptime_Ymd (sep : Char) (v : List Char) : Option (Nat × Nat × Nat) :=
  match splitOnChar sep v with
  | [ys, ms, ds] =>
    match parseYearField ys, parseMonthField ms, parseDayField ds with
    | some y, some m, some d => mkDate y m d
    | _, _, _ => none
  | _ => none

/-- Two-digit zero padding of `strftime` `%m` / `%d`. -/
def pad2 (n : Nat) : String := if n < 10 then "0" ++ toString n else toString n

/-- `strftime("%Y-%m-%d")`; the year is printed unpadded as glibc does. -/
def isoFormat (y m d : Nat) : String := toString y ++ "-" ++ pad2 m ++ "-" ++ pad2 d

/-- `normalize_date`: empty in, empty out; strip; an 8-digit string is sliced
positionally as `val[:4]-val[4:6]-val[6:]`; otherwise try the three strptime
formats in order; otherwise return the (stripped) value. -/
def normalize_date (val : String) : String :=
  if val = "" then ""
  else if (pyStrip val).data.length = 8 ∧ (pyStrip val).data.all Char.isDigit = true then
    ⟨(pyStrip val).data.take 4⟩ ++ "-" ++ ⟨((pyStrip val).data.drop 4).take 2⟩ ++ "-" ++
      ⟨(pyStrip val).data.drop 6⟩
  else
    match strptime_dmY (pyStrip val).data with
    | some (y, m, d) => isoFormat y m d
    | none =>
      match strptime_Ymd '-' (pyStrip val).data with
      | some (y, m, d) => isoFormat y m d
      | none =>
        match strptime_Ymd '/' (pyStrip val).data with
        | some (y, m, d) => isoFormat y m d
        | none => pyStrip val

/-! ### Lemmas about `normalize_date` -/

theorem dropWhile_eq_self_of_not {l : List Char} (h : ∀ c ∈ l, pyIsSpace c = false) :
    l.dropWhile pyIsSpace = l := by
  cases l with
  | nil => rfl
  | cons c t => simp [List.dropWhile_cons, h c (by simp)]

theorem pyStrip_eq_self {l : List Char} (h : ∀ c ∈ l, pyIsSpace c = false) :
    pyStrip ⟨l⟩ = ⟨l⟩ := by
  show (⟨((l.dropWhile pyIsSpace).reverse.dropWhile pyIsSpace).reverse⟩ : String) = ⟨l⟩
  rw [dropWhile_eq_self_of_not h,
    dropWhile_eq_self_of_not (fun c hc => h c (List.mem_reverse.mp hc)),
    List.reverse_reverse]

theorem isDigit_not_space {c : Char} (h : c.isDigit = true) : pyIsSpace c = false := by
  cases hx : pyIsSpace c
  · rfl
  · have hmem : c ∈ [' ', '\t', '\n', '\r', '\x0b', '\x0c'] := by
      simpa [pyIsSpace, or_assoc] using hx
    fin_cases hmem <;> exact absurd h (by decide)

theorem digit_ne {c x : Char} (h : c.isDigit = true) (hx : x.isDigit = false) : c ≠ x := by
  rintro rfl
  rw [h] at hx
  cases hx

theorem splitOnChar_ne_nil (sep : Char) (v : List Char) : splitOnChar sep v ≠ [] := by
  induction v with
  | nil => simp [splitOnChar]
  | cons c t ih =>
    unfold splitOnChar
    cases h : splitOnChar sep t with
    | nil => exact absurd h ih
    | cons p ps => by_cases hc : c = sep <;> simp [hc]

theorem splitOnChar_no_sep {sep : Char} {v : List Char} (h : ∀ c ∈ v, c ≠ sep) :
    splitOnChar sep v = [v] := by
  induction v with
  | nil => rfl
  | cons c t ih =>
    have ht : splitOnChar sep t = [t] := ih (fun x hx => h x (by simp [hx]))
    unfold splitOnChar
    rw [ht]
    simp [h c (by simp)]

theorem splitOnChar_flatten (sep : Char) (v : List Char) :
    (List.intersperse [sep] (splitOnChar sep v)).flatten = v := by
  induction v with
  | nil => rfl
  | cons c t ih =>
    unfold splitOnChar
    cases h : splitOnChar sep t with
    | nil => exact absurd h (splitOnChar_ne_nil sep t)
    | cons p ps =>
      rw [h] at ih
      by_cases hc : c = sep
      · subst hc
        simp only [if_pos rfl]
        cases ps <;> simp_all [List.intersperse]
      · simp only [if_neg hc]
        cases ps <;> simp_all [List.intersperse]

theorem split3_structure {sep : Char} {v a b c : List Char}
    (h : splitOnChar sep v = [a, b, c]) : v = a ++ sep :: (b ++ sep :: c) := by
  have hfl := splitOnChar_flatten sep v
  rw [h] at hfl
  simpa [List.intersperse] using hfl.symm

theorem parseDayField_digits {l : List Char} {d : Nat} (h : parseDayField l = some d) :
    l.all Char.isDigit = true := by
  unfold parseDayField at h
  split at h
  · next hcond => exact hcond.1
  · cases h

theorem parseMonthField_digits {l : List Char} {m : Nat} (h : parseMonthField l = some m) :
    l.all Char.isDigit = true := by
  unfold parseMonthField at h
  split at h
  · next hcond => exact hcond.1
  · cases h

theorem parseYearField_digits {l : List Char} {y : Nat} (h : parseYearField l = some y) :
    l.all Char.isDigit = true := by
  unfold parseYearField at h
  split at h
  · next hcond => exact hcond.1
  · cases h

theorem strptime_dmY_none_of_no_dot {v : List Char} (h : ∀ c ∈ v, c ≠ '.') :
    strptime_dmY v = none := by
  unfold strptime_dmY
  rw [splitOnChar_no_sep h]

theorem strptime_Ymd_none_of_no_sep {sep : Char} {v : List Char} (h : ∀ c ∈ v, c ≠ sep) :
    strptime_Ymd sep v = none := by
  unfold strptime_Ymd
  rw [splitOnChar_no_sep h]

theorem strptime_dmY_none_of_digits {v : List Char} (h : v.all Char.isDigit = true) :
    strptime_dmY v = none :=
  strptime_dmY_none_of_no_dot
    (fun c hc => digit_ne (List.all_eq_true.mp h c hc) (by decide))

/-- Successful `%Y<sep>%m<sep>%d` parse: the input splits into three digit
fields around two separators. -/
theorem strptime_Ymd_structure {sep : Char} {v : List Char} {y m d : Nat}
    (h : strptime_Ymd sep v = some (y, m, d)) :
    ∃ a b c : List Char, v = a ++ sep :: (b ++ sep :: c) ∧
      a.all Char.isDigit = true ∧ b.all Char.isDigit = true ∧ c.all Char.isDigit = true := by
  unfold strptime_Ymd at h
  split at h
  · next a b c heq =>
    refine ⟨a, b, c, split3_structure heq, ?_⟩
    split at h
    · next hy hm hd =>
      exact ⟨parseYearField_digits hy, parseMonthField_digits hm, parseDayField_digits hd⟩
    · cases h
  · cases h

theorem normalize_date_eight {l : List Char} (h8 : l.length = 8)
    (hd : l.all Char.isDigit = true) :
    normalize_date ⟨l⟩ = ⟨l.take 4⟩ ++ "-" ++ ⟨(l.drop 4).take 2⟩ ++ "-" ++ ⟨l.drop 6⟩ := by
  have hne : (⟨l⟩ : String) ≠ "" := by
    intro hcon
    have hl : l = [] := congrArg String.data hcon
    rw [hl] at h8
    simp at h8
  have hstrip : pyStrip ⟨l⟩ = ⟨l⟩ :=
    pyStrip_eq_self (fun c hc => isDigit_not_space (List.all_eq_true.mp hd c hc))
  unfold normalize_date
  rw [if_neg hne, hstrip]
  rw [if_pos ⟨h8, hd⟩]

theorem normalize_date_dmY {s : String} {y m d : Nat} (hs : s ≠ "")
    (hp : strptime_dmY (pyStrip s).data = some (y, m, d)) :
    normalize_date s = isoFormat y m d := by
  have h8 : ¬((pyStrip s).data.length = 8 ∧ (pyStrip s).data.all Char.isDigit = true) := by
    rintro ⟨-, hdig⟩
    rw [strptime_dmY_none_of_digits hdig] at hp
    cases hp
  unfold normalize_date
  rw [if_neg hs, if_neg h8, hp]

theorem mem_split3 {x sep : Char} {a b c : List Char}
    (h : x ∈ a ++ sep :: (b ++ sep :: c)) : x ∈ a ∨ x = sep ∨ x ∈ b ∨ x ∈ c := by
  simp only [List.mem_append, List.mem_cons] at h
  tauto

theorem normalize_date_Ymd_dash {s : String} {y m d : Nat} (hs : s ≠ "")
    (hp : strptime_Ymd '-' (pyStrip s).data = some (y, m, d)) :
    normalize_date s = isoFormat y m d := by
  obtain ⟨a, b, c, hv, ha, hb, hc⟩ := strptime_Ymd_structure hp
  have hdash : '-' ∈ (pyStrip s).data := by
    rw [hv]
    simp
  have h8 : ¬((pyStrip s).data.length = 8 ∧ (pyStrip s).data.all Char.isDigit = true) := by
    rintro ⟨-, hdig⟩
    have := List.all_eq_true.mp hdig '-' hdash
    exact absurd this (by decide)
  have hnodot : ∀ x ∈ (pyStrip s).data, x ≠ '.' := by
    intro x hx
    rw [hv] at hx
    rcases mem_split3 hx with h1 | h1 | h1 | h1
    · exact digit_ne (List.all_eq_true.mp ha x h1) (by decide)
    · subst h1; decide
    · exact digit_ne (List.all_eq_true.mp hb x h1) (by decide)
    · exact digit_ne (List.all_eq_true.mp hc x h1) (by decide)
  unfold normalize_date
  rw [if_neg hs, if_neg h8, strptime_dmY_none_of_no_dot hnodot, hp]

theorem normalize_date_Ymd_slash {s : String} {y m d : Nat} (hs : s ≠ "")
    (hp : strptime_Ymd '/' (pyStrip s).data = some (y, m, d)) :
    normalize_date s = isoFormat y m d := by
  obtain ⟨a, b, c, hv, ha, hb, hc⟩ := strptime_Ymd_structure hp
  have hslash : '/' ∈ (pyStrip s).data := by
    rw [hv]
    simp
  have h8 : ¬((pyStrip s).data.length = 8 ∧ (pyStrip s).data.all Char.isDigit = true) := by
    rintro ⟨-, hdig⟩
    have := List.all_eq_true.mp hdig '/' hslash
    exact absurd this (by decide)
  have hnomem : ∀ (z : Char), z.isDigit = false → z ≠ '/' → ∀ x ∈ (pyStrip s).data, x ≠ z := by
    intro z hz hzsep x hx
    rw [hv] at hx
    rcases mem_split3 hx with h1 | h1 | h1 | h1
    · exact digit_ne (List.all_eq_true.mp ha x h1) hz
    · subst h1
      exact fun hh => hzsep hh.symm
    · exact digit_ne (List.all_eq_true.mp hb x h1) hz
    · exact digit_ne (List.all_eq_true.mp hc x h1) hz
  unfold normalize_date
  rw [if_neg hs, if_neg h8, strptime_dmY_none_of_no_dot (hnomem '.' (by decide) (by decide)),
    strptime_Ymd_none_of_no_sep (hnomem '-' (by decide) (by decide)), hp]

theorem normalize_date_passthrough {s : String} (hs : s ≠ "")
    (h8 : ¬((pyStrip s).data.length = 8 ∧ (pyStrip s).data.all Char.isDigit = true))
    (h1 : strptime_dmY (pyStrip s).data = none)
    (h2 : strptime_Ymd '-' (pyStrip s).data = none)
    (h3 : strptime_Ymd '/' (pyStrip s).data = none) :
    normalize_date s = pyStrip s := by
  unfold normalize_date
  rw [if_neg hs, if_neg h8, h1, h2, h3]

/-- Claim C4 counterexample: an 8-digit string is sliced as YYYYMMDD, not
parsed as DDMMYYYY (so `"25122024"` does not become `"2024-12-25"`), and an
unparseable value surrounded by whitespace comes back stripped, not
unchanged. -/
theorem claim_C4_counterexample :
    normalize_date "25122024" = "2512-20-24" ∧ normalize_date "25122024" ≠ "2024-12-25" ∧
    normalize_date " abc " = "abc" ∧ normalize_date " abc " ≠ " abc " := by
  refine ⟨by decide, by decide, by decide, by decide⟩

/-- Claim C4 (amended): `normalize_date` slices any 8-digit string
positionally as `YYYY-MM-DD` (a YYYYMMDD reading, unvalidated); parses the
`DD.MM.YYYY`, `YYYY-MM-DD` and `YYYY/MM/DD` forms of valid calendar dates to
the ISO string; and returns every other value stripped of surrounding
whitespace but otherwise unchanged, never raising. -/
theorem claim_C4_date_normalization :
    (∀ l : List Char, l.length = 8 → l.all Char.isDigit = true →
      normalize_date ⟨l⟩ = ⟨l.take 4⟩ ++ "-" ++ ⟨(l.drop 4).take 2⟩ ++ "-" ++ ⟨l.drop 6⟩)
    ∧ (∀ (s : String) (y m d : Nat), s ≠ "" →
        strptime_dmY (pyStrip s).data = some (y, m, d) →
        normalize_date s = isoFormat y m d)
    ∧ (∀ (s : String) (y m d : Nat), s ≠ "" →
        strptime_Ymd '-' (pyStrip s).data = some (y, m, d) →
        normalize_date s = isoFormat y m d)
    ∧ (∀ (s : String) (y m d : Nat), s ≠ "" →
        strptime_Ymd '/' (pyStrip s).data = some (y, m, d) →
        normalize_date s = isoFormat y m d)
    ∧ (∀ s : String, s ≠ "" →
        ¬((pyStrip s).data.length = 8 ∧ (pyStrip s).data.all Char.isDigit = true) →
        strptime_dmY (pyStrip s).data = none → strptime_Ymd '-' (pyStrip s).data = none →
        strptime_Ymd '/' (pyStrip s).data = none → normalize_date s = pyStrip s)
    ∧ (normalize_date "01.02.2024" = "2024-02-01" ∧ normalize_date "2024/3/7" = "2024-03-07" ∧
       normalize_date "2024-12-25" = "2024-12-25" ∧ normalize_date "29.02.2024" = "2024-02-29" ∧
       normalize_date "29.02.2023" = "29.02.2023" ∧ normalize_date "" = "") := by
  refine ⟨fun l h8 hd => normalize_date_eight h8 hd,
    fun s y m d hs hp => normalize_date_dmY hs hp,
    fun s y m d hs hp => normalize_date_Ymd_dash hs hp,
    fun s y m d hs hp => normalize_date_Ymd_slash hs hp,
    fun s hs h8 h1 h2 h3 => normalize_date_passthrough hs h8 h1 h2 h3,
    by decide, by decide, by decide, by decide, by decide, by decide⟩

/-- Witness for C4: the `DD.MM.YYYY` clause applied at `"05.06.2024"`. -/
theorem claim_C4_witness : normalize_date "05.06.2024" = isoFormat 2024 6 5 :=
  claim_C4_date_normalization.2.1 "05.06.2024" 2024 6 5 (by decide) (by decide)

/-! ## `merge_csv.py`: schema normalizer (`normalize`) -/

/-- The canonical 24-column schema `SCHEMA`. -/
def SCHEMA : List String := [
  "FirstName", "SecondName", "LastName", "PassengerSex", "PassengerBirthDate",
  "TravelDoc", "BookingCode", "TicketNumber", "Baggage",
  "DepartDate", "DepartTime", "FlightNumber", "CodeShare",
  "DepartCity", "ArrivalCity", "DepartCode", "ArrivalCode",
  "Airline", "Fare", "Seat", "TrvCls", "Meal", "BonusProgramm", "AgentInfo"]

/-- A raw column's payload: either a per-row series of optional (possibly
missing) text cells, or a degenerate scalar value — the broken-column case
the source detects (`df[c]` not a Series) and repairs by broadcasting. -/
inductive RawColData
  | cells (l : List (Option String))
  | scalar (v : String)
deriving DecidableEq, Repr

/-- A raw named column. -/
structure RawCol where
  name : String
  data : RawColData
deriving DecidableEq, Repr

/-- A raw rectangular table: a row count and named columns. -/
structure RawTable where
  nrows : Nat
  cols : List RawCol
deriving DecidableEq, Repr

/-- Input to `normalize`: a DataFrame, or a value of the wrong type. -/
inductive NormInput
  | table (t : RawTable)
  | notTable
deriving DecidableEq, Repr

/-- A normalized table: named all-text columns. -/
structure CanonTable where
  cols : List (String × List String)
deriving DecidableEq, Repr

/-- `df.rename(columns=mapping)` applied to one column name (an absent or
invalid mapping renames nothing). -/
def renameCol (mapping : Option (List (String × String))) (n : String) : String :=
  match mapping with
  | none => n
  | some m =>
    match m.lookup n with
    | some n2 => n2
    | none => n

/-- Broken-column repair: broadcast a scalar to `nrows` rows
(`pd.Series([val] * len(df))`). -/
def fixCol (nrows : Nat) (d : RawColData) : List (Option String) :=
  match d with
  | .cells l => l
  | .scalar v => List.replicate nrows (some v)

/-- `fillna("")` followed by `astype(str)` on one cell. -/
def toText (c : Option String) : String := c.getD ""

/-- The column names of a raw table after renaming and name-trimming
(`df.columns = [str(c).strip() for c in df.columns]`). -/
def processedNames (mapping : Option (List (String × String))) (t : RawTable) : List String :=
  t.cols.map (fun c => pyStrip (renameCol mapping c.name))

/-- The renamed, trimmed, broken-column-repaired, all-text columns of a raw
table (steps 1–4 of `normalize`). -/
def normFilled (mapping : Option (List (String × String))) (t : RawTable) :
    List (String × List String) :=
  t.cols.map (fun c =>
    (pyStrip (renameCol mapping c.name), (fixCol t.nrows c.data).map toText))

/-- Step 5 of `normalize`: append every canonical column absent from the
input, filled with empty strings (`df[col] = ""`). -/
def normAdded (mapping : Option (List (String × String))) (t : RawTable) :
    List (String × List String) :=
  normFilled mapping t ++
    (SCHEMA.filter (fun n => !((normFilled mapping t).map Prod.fst).contains n)).map
      (fun n => (n, List.replicate t.nrows ""))

/-- `normalize(df, mapping)`: wrong input type degrades to an empty canonical
table; otherwise rename and trim column names, repair broken columns, make
every cell text, append missing canonical columns filled with `""`, and take
`df[SCHEMA]` (which keeps every column whose name matches, in schema order). -/
def normalize (inp : NormInput) (mapping : Option (List (String × String))) : CanonTable :=
  match inp with
  | .notTable => ⟨SCHEMA.map (fun n => (n, []))⟩
  | .table t =>
    ⟨(SCHEMA.map (fun n => (normAdded mapping t).filter (fun col => col.1 == n))).flatten⟩

/-! ### Lemmas about `normalize` -/

theorem filter_fst_replicate (l : List (String × List String)) (n : String) :
    (l.filter (fun col => col.1 == n)).map Prod.fst =
      List.replicate ((l.map Prod.fst).count n) n := by
  induction l with
  | nil => rfl
  | cons a t ih =>
    by_cases h : a.1 = n
    · simp [List.filter_cons, List.count_cons, h, ih, List.replicate_succ]
    · simp [List.filter_cons, List.count_cons, h, ih]

theorem flatten_map_singleton {α : Type} (l : List α) :
    (l.map (fun a => [a])).flatten = l := by
  induction l with
  | nil => rfl
  | cons a t ih => simp [ih]

theorem schema_nodup : SCHEMA.Nodup := by decide

theorem normFilled_names (mapping : Option (List (String × String))) (t : RawTable) :
    (normFilled mapping t).map Prod.fst = processedNames mapping t := by
  simp [normFilled, processedNames, List.map_map, Function.comp]

/-- Under distinct processed names, every canonical name occurs exactly once
among the names of the column list `normAdded`. -/
theorem map_fst_pair (l : List String) (r : List String) :
    (l.map (fun x => (x, r))).map Prod.fst = l := by
  induction l with
  | nil => rfl
  | cons a t ih => simp [ih]

theorem normAdded_count_one {mapping : Option (List (String × String))} {t : RawTable}
    (hnd : (processedNames mapping t).Nodup) {n : String} (hn : n ∈ SCHEMA) :
    ((normAdded mapping t).map Prod.fst).count n = 1 := by
  unfold normAdded
  rw [List.map_append, List.count_append, map_fst_pair, normFilled_names]
  by_cases hmem : n ∈ processedNames mapping t
  · have h1 : (processedNames mapping t).count n = 1 := List.count_eq_one_of_mem hnd hmem
    have h0 : (SCHEMA.filter
        (fun x => !(processedNames mapping t).contains x)).count n = 0 := by
      rw [List.count_eq_zero]
      intro hcon
      have hf := (List.mem_filter.mp hcon).2
      rw [Bool.not_eq_true'] at hf
      have : (processedNames mapping t).contains n = true := List.elem_iff.mpr hmem
      rw [this] at hf
      cases hf
    rw [h1, h0]
  · have h1 : (processedNames mapping t).count n = 0 := List.count_eq_zero.mpr hmem
    have h2 : (SCHEMA.filter
        (fun x => !(processedNames mapping t).contains x)).count n = 1 := by
      apply List.count_eq_one_of_mem (schema_nodup.filter _)
      rw [List.mem_filter]
      refine ⟨hn, ?_⟩
      rw [Bool.not_eq_true']
      rw [Bool.eq_false_iff]
      intro hcon
      exact hmem (List.elem_iff.mp hcon)
    rw [h1, h2]

/-- Every column of `normAdded` has `t.nrows` cells (given rectangularity). -/
theorem normAdded_lengths {mapping : Option (List (String × String))} {t : RawTable}
    (hrect : ∀ c ∈ t.cols, ∀ l, c.data = RawColData.cells l → l.length = t.nrows) :
    ∀ col ∈ normAdded mapping t, col.2.length = t.nrows := by
  intro col hcol
  unfold normAdded at hcol
  rw [List.mem_append] at hcol
  rcases hcol with hcol | hcol
  · unfold normFilled at hcol
    rw [List.mem_map] at hcol
    obtain ⟨c, hc, hceq⟩ := hcol
    subst hceq
    simp only [List.length_map]
    cases hd : c.data with
    | cells l => simp [fixCol, hd, hrect c hc l hd]
    | scalar v => simp [fixCol, hd]
  · rw [List.mem_map] at hcol
    obtain ⟨x, hx, hxeq⟩ := hcol
    subst hxeq
    simp

/-- Claim C3 counterexample: a table with two identically-named columns makes
`normalize` return 25 columns, not the canonical 24. -/
theorem claim_C3_counterexample :
    (normalize (.table ⟨1, [⟨"FirstName", .cells [some "x"]⟩,
      ⟨"FirstName", .cells [some "y"]⟩]⟩) none).cols.map Prod.fst ≠ SCHEMA := by
  decide

/-- Claim C3 (amended): for every rectangular table whose renamed and trimmed
column names are pairwise distinct, `normalize` returns exactly the 24
canonical columns in canonical order, each with one text cell per input row
(missing cells becoming `""`); a non-table input yields the empty canonical
table instead of an exception.  (With duplicated column names, `df[SCHEMA]`
replicates the duplicates, so the distinctness proviso is necessary.) -/
theorem claim_C3_schema_closure :
    (∀ (t : RawTable) (mapping : Option (List (String × String))),
      (processedNames mapping t).Nodup →
      (∀ c ∈ t.cols, ∀ l, c.data = RawColData.cells l → l.length = t.nrows) →
      ((normalize (.table t) mapping).cols.map Prod.fst = SCHEMA ∧
        ∀ col ∈ (normalize (.table t) mapping).cols, col.2.length = t.nrows))
    ∧ (∀ mapping, normalize .notTable mapping = ⟨SCHEMA.map (fun n => (n, []))⟩) := by
  constructor
  · intro t mapping hnd hrect
    constructor
    · show ((SCHEMA.map
        (fun n => (normAdded mapping t).filter (fun col => col.1 == n))).flatten).map
          Prod.fst = SCHEMA
      rw [List.map_flatten, List.map_map]
      have hinner : ∀ n ∈ SCHEMA,
          ((normAdded mapping t).filter (fun col => col.1 == n)).map Prod.fst = [n] := by
        intro n hn
        rw [filter_fst_replicate, normAdded_count_one hnd hn]
        rfl
      have : SCHEMA.map
          ((fun l => l.map Prod.fst) ∘ (fun n => (normAdded mapping t).filter
            (fun col => col.1 == n))) = SCHEMA.map (fun n => [n]) := by
        apply List.map_congr_left
        intro n hn
        exact hinner n hn
      rw [this, flatten_map_singleton]
    · intro col hcol
      have hmem : col ∈ normAdded mapping t := by
        have : col ∈ (SCHEMA.map
            (fun n => (normAdded mapping t).filter (fun c2 => c2.1 == n))).flatten := hcol
        rw [List.mem_flatten] at this
        obtain ⟨l, hl, hcl⟩ := this
        rw [List.mem_map] at hl
        obtain ⟨n, -, hn⟩ := hl
        subst hn
        exact List.mem_of_mem_filter hcl
      exact normAdded_lengths hrect col hmem
  · intro mapping
    rfl

/-- Witness for C3: a two-column table (one with a padded name and a missing
cell, one extra scalar column) normalizes to the canonical schema. -/
theorem claim_C3_witness :
    (normalize (.table ⟨2, [⟨" FirstName ", .cells [none, some "b"]⟩,
        ⟨"Extra", .scalar "z"⟩]⟩) none).cols.map Prod.fst = SCHEMA ∧
      ∀ col ∈ (normalize (.table ⟨2, [⟨" FirstName ", .cells [none, some "b"]⟩,
        ⟨"Extra", .scalar "z"⟩]⟩) none).cols, col.2.length = 2 :=
  claim_C3_schema_closure.1 ⟨2, [⟨" FirstName ", .cells [none, some "b"]⟩,
    ⟨"Extra", .scalar "z"⟩]⟩ none (by decide)
    (by
      intro c hc l hl
      fin_cases hc
      · injection hl with h
        rw [← h]
        rfl
      · cases hl)

/-! ## `merge_csv.py`: join-key selection (`attach_flights`) and
passport/ticket repair (`fix_passport_ticket_conflict`) -/

/-- `clean_key`: strip, uppercase, keep only ASCII letters and digits
(`re.sub(r"[^A-Z0-9]", "", str(x).strip().upper())`). -/
def clean_key (x : String) : String :=
  ⟨((pyStrip x).data.map pyUpper).filter (fun c => c.isUpper || c.isDigit)⟩

/-- The key fields of one passenger row used by tier selection. -/
structure LinkRow where
  TravelDoc : String
  TicketNumber : String
  BonusProgramm : String
  FlightNumber : String
  DepartDate : String
deriving DecidableEq, Repr, Inhabited

/-- The key-cleaning loop of `attach_flights`: `clean_key` is applied to
TicketNumber, FlightNumber and DepartDate but never to TravelDoc. -/
def cleanRow (r : LinkRow) : LinkRow :=
  { r with TicketNumber := clean_key r.TicketNumber,
           FlightNumber := clean_key r.FlightNumber,
           DepartDate := clean_key r.DepartDate }

/-- The four join-key tiers in priority order. -/
def tierTravelDoc : List String := ["TravelDoc", "FlightNumber", "DepartDate"]

def tierTicket : List String := ["TicketNumber", "FlightNumber", "DepartDate"]

def tierBonus : List String := ["BonusProgramm", "FlightNumber", "DepartDate"]

def tierFlightDate : List String := ["FlightNumber", "DepartDate"]

/-- Key-tier selection of `attach_flights`: run on the passenger block after
the key-cleaning loop mutated it; pick the first tier whose primary column
has some value that is non-empty after `.str.strip()`. -/
def selectKeyTier (p : List LinkRow) : List String :=
  if (p.map cleanRow).any (fun r => pyStrip r.TravelDoc != "") then tierTravelDoc
  else if (p.map cleanRow).any (fun r => pyStrip r.TicketNumber != "") then tierTicket
  else if (p.map cleanRow).any (fun r => pyStrip r.BonusProgramm != "") then tierBonus
  else tierFlightDate

/-- The fields of one linked row read or written by
`fix_passport_ticket_conflict`; `other` stands for all remaining columns. -/
structure MergedRow where
  TravelDoc : String
  TicketNumber : String
  other : String
deriving DecidableEq, Repr, Inhabited

/-- `fix_passport_ticket_conflict` on one row: if the stripped TravelDoc is
all digits with length at least 10 (`re.fullmatch(r"\d{10,}", doc)`) and the
stripped TicketNumber is empty, move the stripped document value into
TicketNumber and clear TravelDoc. -/
def fix_passport_ticket_conflict (row : MergedRow) : MergedRow :=
  if 10 ≤ (pyStrip row.TravelDoc).data.length ∧
      (pyStrip row.TravelDoc).data.all Char.isDigit = true ∧
      pyStrip row.TicketNumber = "" then
    { row with TicketNumber := pyStrip row.TravelDoc, TravelDoc := "" }
  else row

/-! ### Lemmas and claims for the linker -/

theorem clean_key_pyStrip (x : String) : pyStrip (clean_key x) = clean_key x := by
  apply pyStrip_eq_self
  intro c hc
  have hprop : (c.isUpper || c.isDigit) = true := (List.mem_filter.mp hc).2
  cases hx : pyIsSpace c
  · rfl
  · have hmem : c ∈ [' ', '\t', '\n', '\r', '\x0b', '\x0c'] := by
      simpa [pyIsSpace, or_assoc] using hx
    fin_cases hmem <;> exact absurd hprop (by decide)

/-- Claim C5 counterexample: with TravelDoc entirely empty and a TicketNumber
value `"-"` that is non-empty after trimming, the TicketNumber tier is *not*
selected (cleaning erases `"-"`), the BonusProgramm tier is. -/
theorem claim_C5_counterexample :
    selectKeyTier [⟨"", "-", "B", "", ""⟩] = tierBonus ∧
    tierBonus ≠ tierTicket ∧ pyStrip "-" ≠ "" := by
  refine ⟨by decide, by decide, by decide⟩

/-- Claim C5 (amended): the tier is selected once per run in the fixed
priority order TravelDoc > TicketNumber > BonusProgramm > FlightNumber+Date,
the first whose primary field has a non-empty value on some row — where
TravelDoc and BonusProgramm are judged after trimming only, but TicketNumber
is judged after key-cleaning (uppercase, drop non-alphanumerics). -/
theorem claim_C5_tier_selection :
    (∀ p : List LinkRow, (∃ r ∈ p, pyStrip r.TravelDoc ≠ "") →
      selectKeyTier p = tierTravelDoc)
    ∧ (∀ p : List LinkRow, (∀ r ∈ p, pyStrip r.TravelDoc = "") →
        (∃ r ∈ p, clean_key r.TicketNumber ≠ "") → selectKeyTier p = tierTicket)
    ∧ (∀ p : List LinkRow, (∀ r ∈ p, pyStrip r.TravelDoc = "") →
        (∀ r ∈ p, clean_key r.TicketNumber = "") →
        (∃ r ∈ p, pyStrip r.BonusProgramm ≠ "") → selectKeyTier p = tierBonus)
    ∧ (∀ p : List LinkRow, (∀ r ∈ p, pyStrip r.TravelDoc = "") →
        (∀ r ∈ p, clean_key r.TicketNumber = "") →
        (∀ r ∈ p, pyStrip r.BonusProgramm = "") → selectKeyTier p = tierFlightDate) := by
  have hdoc : ∀ (p : List LinkRow),
      ((p.map cleanRow).any (fun r => pyStrip r.TravelDoc != "")) = true ↔
      (∃ r ∈ p, pyStrip r.TravelDoc ≠ "") := by
    intro p
    rw [List.any_eq_true]
    constructor
    · rintro ⟨r, hr, hne⟩
      rw [List.mem_map] at hr
      obtain ⟨r0, hr0, rfl⟩ := hr
      exact ⟨r0, hr0, by simpa using hne⟩
    · rintro ⟨r, hr, hne⟩
      exact ⟨cleanRow r, List.mem_map_of_mem _ hr, by simpa [cleanRow] using hne⟩
  have htick : ∀ (p : List LinkRow),
      ((p.map cleanRow).any (fun r => pyStrip r.TicketNumber != "")) = true ↔
      (∃ r ∈ p, clean_key r.TicketNumber ≠ "") := by
    intro p
    rw [List.any_eq_true]
    constructor
    · rintro ⟨r, hr, hne⟩
      rw [List.mem_map] at hr
      obtain ⟨r0, hr0, rfl⟩ := hr
      refine ⟨r0, hr0, ?_⟩
      have : pyStrip (cleanRow r0).TicketNumber ≠ "" := by simpa using hne
      simpa [cleanRow, clean_key_pyStrip] using this
    · rintro ⟨r, hr, hne⟩
      refine ⟨cleanRow r, List.mem_map_of_mem _ hr, ?_⟩
      simpa [cleanRow, clean_key_pyStrip] using hne
  have hbonus : ∀ (p : List LinkRow),
      ((p.map cleanRow).any (fun r => pyStrip r.BonusProgramm != "")) = true ↔
      (∃ r ∈ p, pyStrip r.BonusProgramm ≠ "") := by
    intro p
    rw [List.any_eq_true]
    constructor
    · rintro ⟨r, hr, hne⟩
      rw [List.mem_map] at hr
      obtain ⟨r0, hr0, rfl⟩ := hr
      exact ⟨r0, hr0, by simpa [cleanRow] using hne⟩
    · rintro ⟨r, hr, hne⟩
      exact ⟨cleanRow r, List.mem_map_of_mem _ hr, by simpa [cleanRow] using hne⟩
  refine ⟨?_, ?_, ?_, ?_⟩
  · intro p h
    unfold selectKeyTier
    rw [if_pos ((hdoc p).mpr h)]
  · intro p h1 h2
    unfold selectKeyTier
    rw [if_neg (fun hcon => by obtain ⟨r, hr, hne⟩ := (hdoc p).mp hcon; exact hne (h1 r hr)),
      if_pos ((htick p).mpr h2)]
  · intro p h1 h2 h3
    unfold selectKeyTier
    rw [if_neg (fun hcon => by obtain ⟨r, hr, hne⟩ := (hdoc p).mp hcon; exact hne (h1 r hr)),
      if_neg (fun hcon => by obtain ⟨r, hr, hne⟩ := (htick p).mp hcon; exact hne (h2 r hr)),
      if_pos ((hbonus p).mpr h3)]
  · intro p h1 h2 h3
    unfold selectKeyTier
    rw [if_neg (fun hcon => by obtain ⟨r, hr, hne⟩ := (hdoc p).mp hcon; exact hne (h1 r hr)),
      if_neg (fun hcon => by obtain ⟨r, hr, hne⟩ := (htick p).mp hcon; exact hne (h2 r hr)),
      if_neg (fun hcon => by obtain ⟨r, hr, hne⟩ := (hbonus p).mp hcon; exact hne (h3 r hr))]

/-- Witness for C5: TravelDoc empty, TicketNumber `"TK 1"` (cleans to
`"TK1"`) selects the TicketNumber tier. -/
theorem claim_C5_witness : selectKeyTier [⟨"", "TK 1", "", "", ""⟩] = tierTicket :=
  claim_C5_tier_selection.2.1 [⟨"", "TK 1", "", "", ""⟩]
    (by decide) ⟨⟨"", "TK 1", "", "", ""⟩, by decide, by decide⟩

/-- Claim C6: a row whose trimmed TravelDoc is all digits of length ≥ 10 and
whose trimmed TicketNumber is empty has the (trimmed) document value moved
into TicketNumber and TravelDoc cleared, all other fields unchanged; every
other row is left entirely unchanged; in particular
`("1234567890123", "")` becomes `("", "1234567890123")`. -/
theorem claim_C6_passport_ticket_repair :
    (∀ row : MergedRow, 10 ≤ (pyStrip row.TravelDoc).data.length →
      (pyStrip row.TravelDoc).data.all Char.isDigit = true →
      pyStrip row.TicketNumber = "" →
      fix_passport_ticket_conflict row =
        { row with TicketNumber := pyStrip row.TravelDoc, TravelDoc := "" })
    ∧ (∀ row : MergedRow,
        ¬(10 ≤ (pyStrip row.TravelDoc).data.length ∧
          (pyStrip row.TravelDoc).data.all Char.isDigit = true ∧
          pyStrip row.TicketNumber = "") →
        fix_passport_ticket_conflict row = row)
    ∧ fix_passport_ticket_conflict ⟨"1234567890123", "", "o"⟩ = ⟨"", "1234567890123", "o"⟩ := by
  refine ⟨?_, ?_, by decide⟩
  · intro row h1 h2 h3
    unfold fix_passport_ticket_conflict
    rw [if_pos ⟨h1, h2, h3⟩]
  · intro row h
    unfold fix_passport_ticket_conflict
    rw [if_neg h]

/-- Witness for C6: a whitespace-padded 10-digit document with a blank
ticket is repaired (the moved value is the trimmed one). -/
theorem claim_C6_witness :
    fix_passport_ticket_conflict ⟨" 1234567890 ", " ", "x"⟩ =
      { (⟨" 1234567890 ", " ", "x"⟩ : MergedRow) with
        TicketNumber := pyStrip " 1234567890 ", TravelDoc := "" } :=
  claim_C6_passport_ticket_repair.1 ⟨" 1234567890 ", " ", "x"⟩
    (by decide) (by decide) (by decide)

/-! ## `name_utils.py`: the identity merge engine
(`merge_duplicate_passengers`)

A DataFrame row becomes a `PassengerRec`: one field per column the engine
reads or writes, plus `other` standing for all remaining canonical columns.
The suspicious-divergence records the engine appends to the audit file
become an explicit second component of the result. -/

structure PassengerRec where
  FirstName : String
  SecondName : String
  LastName : String
  TravelDoc : String
  FlightNumber : String
  DepartDate : String
  DepartCity : String
  Airline : String
  other : String
deriving DecidableEq, Repr, Inhabited

/-- One row of the suspicious-divergence audit table. -/
structure SuspiciousRec where
  TravelDoc : String
  FirstNames : String
  LastNames : String
  Count : Nat
  Flights : String
  Dates : String
  Cities : String
  Airlines : String
deriving DecidableEq, Repr, Inhabited

/-- The per-record completeness score of the merge loop:
`FirstName + LastName + SecondName` completeness. -/
def scoreRec (r : PassengerRec) : Nat :=
  name_completeness r.FirstName + name_completeness r.LastName +
    name_completeness r.SecondName

/-- The maximal completeness score of a group. -/
def maxScore (g : List PassengerRec) : Nat := (g.map scoreRec).foldl Nat.max 0

/-- `group.loc[group["completeness"].idxmax()]`: the first row attaining the
maximal score. -/
def bestRow (g : List PassengerRec) : PassengerRec :=
  (g.find? (fun r => scoreRec r == maxScore g)).getD default

/-- The unification guard: both FirstName and LastName equivalent to the
reference row's. -/
def bothEquiv (b r : PassengerRec) : Bool :=
  names_are_equivalent r.FirstName b.FirstName &&
    names_are_equivalent r.LastName b.LastName

/-- One iteration of the unification loop: an equivalent row receives the
reference row's FirstName, LastName and SecondName. -/
def unifyRec (b r : PassengerRec) : PassengerRec :=
  if bothEquiv b r then
    { r with FirstName := b.FirstName, LastName := b.LastName,
             SecondName := b.SecondName }
  else r

/-- `set(group[col].astype(str).str.strip().unique())`: the distinct stripped
values of one column over a group. -/
def uniqueStripped (f : PassengerRec → String) (g : List PassengerRec) : List String :=
  (g.map (fun r => pyStrip (f r))).dedup

/-- Python strict lexicographic string comparison, character code point by
character code point (the order under which `sorted` and the pandas groupby
sort keys). -/
def lexLt : List Char → List Char → Bool
  | _, [] => false
  | [], _ :: _ => true
  | a :: as, b :: bs =>
    if a.toNat < b.toNat then true
    else if b.toNat < a.toNat then false
    else lexLt as bs

/-- Python `a <= b` on strings. -/
def pyStrLe (a b : String) : Bool := !(lexLt b.data a.data)

/-- `", ".join(sorted(values))`. -/
def joinSorted (l : List String) : String :=
  String.intercalate ", " (List.insertionSort (fun a b => pyStrLe a b = true) l)

/-- `diff_names`: the values not equivalent to the reference name. -/
def divergentNames (names : List String) (ref : String) : List String :=
  names.filter (fun n => !names_are_equivalent n ref)

/-- The suspicious-divergence record of one group (`None` when every distinct
first and last name is equivalent to the reference row's). -/
def groupSusp (k : String) (g : List PassengerRec) : Option SuspiciousRec :=
  if divergentNames (uniqueStripped (fun r => r.FirstName) g) (bestRow g).FirstName ≠ [] ∨
      divergentNames (uniqueStripped (fun r => r.LastName) g) (bestRow g).LastName ≠ [] then
    some { TravelDoc := pyStrip k,
           FirstNames := joinSorted (uniqueStripped (fun r => r.FirstName) g),
           LastNames := joinSorted (uniqueStripped (fun r => r.LastName) g),
           Count := g.length,
           Flights := joinSorted (uniqueStripped (fun r => r.FlightNumber) g),
           Dates := joinSorted (uniqueStripped (fun r => r.DepartDate) g),
           Cities := joinSorted (uniqueStripped (fun r => r.DepartCity) g),
           Airlines := joinSorted (uniqueStripped (fun r => r.Airline) g) }
  else none

/-- The body of the per-group loop: groups with an empty (stripped) document
key or exactly one member pass through untouched; otherwise unify every
equivalent row towards the reference row and possibly emit one divergence. -/
def mergeGroup (k : String) (g : List PassengerRec) :
    List PassengerRec × Option SuspiciousRec :=
  if pyStrip k = "" ∨ g.length = 1 then (g, none)
  else (g.map (unifyRec (bestRow g)), groupSusp k g)

/-- The rows of `df.groupby("TravelDoc")` for one key (original order). -/
def groupOf (rows : List PassengerRec) (k : String) : List PassengerRec :=
  rows.filter (fun r => r.TravelDoc == k)

/-- The group keys of `df.groupby("TravelDoc", dropna=False)`: the distinct
document values in sorted order. -/
def docKeys (rows : List PassengerRec) : List String :=
  List.insertionSort (fun a b => pyStrLe a b = true)
    ((rows.map (fun r => r.TravelDoc)).dedup)

/-- `merge_duplicate_passengers`: without a TravelDoc column the input is
returned unchanged (and nothing is logged); otherwise process the groups in
key order and concatenate their rows, collecting the divergence records. -/
def merge_duplicate_passengers (hasTravelDoc : Bool) (rows : List PassengerRec) :
    List PassengerRec × List SuspiciousRec :=
  match hasTravelDoc with
  | false => (rows, [])
  | true =>
    (((docKeys rows).map (fun k => (mergeGroup k (groupOf rows k)).1)).flatten,
     (docKeys rows).filterMap (fun k => (mergeGroup k (groupOf rows k)).2))

/-- `if suspicious_log_path and suspicious_records:` — the audit file is
written iff a log path was supplied and some divergence was recorded. -/
def audit_written (logPath : Bool) (susp : List SuspiciousRec) : Bool :=
  logPath && !susp.isEmpty

/-! ### The Python string order is a linear order -/

theorem uint32_eq_of_toBitVec_eq {a b : UInt32} (h : a.toBitVec = b.toBitVec) : a = b := by
  cases a
  cases b
  cases h
  rfl

theorem char_eq_of_toNat_eq {a b : Char} (h : Char.toNat a = Char.toNat b) : a = b :=
  Char.ext (uint32_eq_of_toBitVec_eq (BitVec.eq_of_toNat_eq h))

theorem string_eq_of_data_eq {a b : String} (h : a.data = b.data) : a = b := by
  cases a
  cases b
  cases h
  rfl

theorem lexLt_cons_iff {a b : Char} {as bs : List Char} :
    lexLt (a :: as) (b :: bs) = true ↔
      (a.toNat < b.toNat ∨ (a.toNat = b.toNat ∧ lexLt as bs = true)) := by
  rw [show lexLt (a :: as) (b :: bs) =
      (if a.toNat < b.toNat then true
       else if b.toNat < a.toNat then false else lexLt as bs) from rfl]
  by_cases h1 : a.toNat < b.toNat
  · simp [h1]
  · by_cases h2 : b.toNat < a.toNat
    · rw [if_neg h1, if_pos h2]
      constructor
      · intro hcon
        cases hcon
      · intro hcon
        exfalso
        rcases hcon with hcon | ⟨hcon, -⟩
        · exact h1 hcon
        · omega
    · rw [if_neg h1, if_neg h2]
      constructor
      · intro h3
        exact Or.inr ⟨by omega, h3⟩
      · intro h3
        rcases h3 with h3 | ⟨-, h3⟩
        · exact absurd h3 h1
        · exact h3

theorem lexLt_nil_right : ∀ y : List Char, lexLt y [] = false := by
  intro y
  cases y <;> rfl

theorem lexLt_trans : ∀ (x y z : List Char),
    lexLt x y = true → lexLt y z = true → lexLt x z = true := by
  intro x
  induction x with
  | nil =>
    intro y z h1 h2
    cases z with
    | nil => rw [lexLt_nil_right y] at h2; cases h2
    | cons c cs => rfl
  | cons a as ih =>
    intro y z h1 h2
    cases y with
    | nil => rw [lexLt_nil_right (a :: as)] at h1; cases h1
    | cons b bs =>
      cases z with
      | nil => rw [lexLt_nil_right (b :: bs)] at h2; cases h2
      | cons c cs =>
        rw [lexLt_cons_iff] at h1 h2 ⊢
        rcases h1 with h1 | ⟨h1e, h1r⟩ <;> rcases h2 with h2 | ⟨h2e, h2r⟩
        · left; omega
        · left; omega
        · left; omega
        · right
          exact ⟨by omega, ih bs cs h1r h2r⟩

theorem lexLt_asymm : ∀ (x y : List Char),
    lexLt x y = true → lexLt y x = true → False := by
  intro x
  induction x with
  | nil =>
    intro y h1 h2
    rw [lexLt_nil_right y] at h2
    cases h2
  | cons a as ih =>
    intro y h1 h2
    cases y with
    | nil => rw [lexLt_nil_right (a :: as)] at h1; cases h1
    | cons b bs =>
      rw [lexLt_cons_iff] at h1 h2
      rcases h1 with h1 | ⟨h1e, h1r⟩ <;> rcases h2 with h2 | ⟨h2e, h2r⟩
      · omega
      · omega
      · omega
      · exact ih bs h1r h2r

theorem lexLt_connex : ∀ (x y : List Char),
    lexLt x y = false → lexLt y x = false → x = y := by
  intro x
  induction x with
  | nil =>
    intro y h1 h2
    cases y with
    | nil => rfl
    | cons b bs => rw [show lexLt [] (b :: bs) = true from rfl] at h1; cases h1
  | cons a as ih =>
    intro y h1 h2
    cases y with
    | nil => rw [show lexLt [] (a :: as) = true from rfl] at h2; cases h2
    | cons b bs =>
      by_cases hlt : a.toNat < b.toNat
      · exact absurd ((@lexLt_cons_iff a b as bs).mpr (Or.inl hlt)) (by simp [h1])
      · by_cases hgt : b.toNat < a.toNat
        · exact absurd ((@lexLt_cons_iff b a bs as).mpr (Or.inl hgt)) (by simp [h2])
        · have he : Char.toNat a = Char.toNat b := by omega
          have h1r : lexLt as bs = false := by
            cases hx : lexLt as bs
            · rfl
            · exact absurd (lexLt_cons_iff.mpr (Or.inr ⟨he, hx⟩)) (by simp [h1])
          have h2r : lexLt bs as = false := by
            cases hx : lexLt bs as
            · rfl
            · exact absurd (lexLt_cons_iff.mpr (Or.inr ⟨he.symm, hx⟩)) (by simp [h2])
          rw [char_eq_of_toNat_eq he, ih bs h1r h2r]

theorem pyStrLe_iff {a b : String} : pyStrLe a b = true ↔ lexLt b.data a.data = false := by
  cases h : lexLt b.data a.data <;> simp [pyStrLe, h]

instance pyStrLe_total : IsTotal String (fun a b => pyStrLe a b = true) := by
  constructor
  intro a b
  by_cases h : lexLt b.data a.data = true
  · right
    rw [pyStrLe_iff]
    cases hx : lexLt a.data b.data
    · rfl
    · exact (lexLt_asymm _ _ hx h).elim
  · left
    rw [pyStrLe_iff]
    cases hx : lexLt b.data a.data
    · rfl
    · exact absurd hx h

instance pyStrLe_trans : IsTrans String (fun a b => pyStrLe a b = true) := by
  constructor
  intro a b c h1 h2
  rw [pyStrLe_iff] at h1 h2 ⊢
  cases hca : lexLt c.data a.data
  · rfl
  · exfalso
    by_cases hbc : lexLt b.data c.data = true
    · have : lexLt b.data a.data = true := lexLt_trans _ _ _ hbc hca
      rw [h1] at this
      cases this
    · have hbc2 : lexLt b.data c.data = false := by
        cases hx : lexLt b.data c.data
        · rfl
        · exact absurd hx hbc
      have : b.data = c.data := lexLt_connex _ _ hbc2 h2
      rw [← this] at hca
      rw [h1] at hca
      cases hca

instance pyStrLe_antisymm : IsAntisymm String (fun a b => pyStrLe a b = true) := by
  constructor
  intro a b h1 h2
  rw [pyStrLe_iff] at h1 h2
  exact string_eq_of_data_eq (lexLt_connex _ _ h2 h1)

/-! ### Group bookkeeping and row-count preservation -/

theorem mergeGroup_length (k : String) (g : List PassengerRec) :
    (mergeGroup k g).1.length = g.length := by
  unfold mergeGroup
  split
  · rfl
  · simp

theorem docKeys_nodup (rows : List PassengerRec) : (docKeys rows).Nodup := by
  unfold docKeys
  exact (List.perm_insertionSort _ _).nodup_iff.mpr (List.nodup_dedup _)

theorem docKeys_sorted (rows : List PassengerRec) :
    List.Sorted (fun a b => pyStrLe a b = true) (docKeys rows) :=
  List.sorted_insertionSort (fun a b => pyStrLe a b = true) _

theorem mem_docKeys {rows : List PassengerRec} {k : String} :
    k ∈ docKeys rows ↔ ∃ r ∈ rows, r.TravelDoc = k := by
  unfold docKeys
  rw [List.Perm.mem_iff (List.perm_insertionSort _ _), List.mem_dedup, List.mem_map]

theorem sum_indicator_zero : ∀ (t : List String) (x : String), x ∉ t →
    (t.map (fun k => if x = k then 1 else 0)).sum = 0 := by
  intro t
  induction t with
  | nil => intro x _; rfl
  | cons a s ih =>
    intro x h
    have hxa : ¬(x = a) := fun hc => h (hc ▸ List.mem_cons_self a s)
    simp [ih x (fun hc => h (List.mem_cons_of_mem a hc)), hxa]

theorem sum_indicator : ∀ (keys : List String) (x : String), keys.Nodup → x ∈ keys →
    (keys.map (fun k => if x = k then 1 else 0)).sum = 1 := by
  intro keys
  induction keys with
  | nil => intro x _ hx; cases hx
  | cons a t ih =>
    intro x hnd hx
    rcases List.mem_cons.mp hx with rfl | hx2
    · have ha : x ∉ t := (List.nodup_cons.mp hnd).1
      simp [sum_indicator_zero t x ha]
    · have hax : ¬(x = a) := by
        rintro rfl
        exact (List.nodup_cons.mp hnd).1 hx2
      simp [ih x (List.nodup_cons.mp hnd).2 hx2, hax]

theorem sum_map_add {α : Type} (l : List α) (f g : α → Nat) :
    (l.map (fun x => f x + g x)).sum = (l.map f).sum + (l.map g).sum := by
  induction l with
  | nil => rfl
  | cons a t ih =>
    simp only [List.map_cons, List.sum_cons, ih]
    omega

theorem length_groups : ∀ (rows : List PassengerRec) (keys : List String), keys.Nodup →
    (∀ r ∈ rows, r.TravelDoc ∈ keys) →
    (keys.map (fun k => (groupOf rows k).length)).sum = rows.length := by
  intro rows
  induction rows with
  | nil =>
    intro keys _ _
    have : keys.map (fun k => (groupOf ([] : List PassengerRec) k).length) =
        keys.map (fun _ => 0) := List.map_congr_left (fun k _ => rfl)
    rw [this]
    induction keys with
    | nil => rfl
    | cons a t ih2 => simp [ih2]
  | cons r t ih =>
    intro keys hnd hcov
    have hsplit : ∀ k, (groupOf (r :: t) k).length =
        (if r.TravelDoc = k then 1 else 0) + (groupOf t k).length := by
      intro k
      unfold groupOf
      rw [List.filter_cons]
      by_cases h : r.TravelDoc = k
      · simp [h, Nat.add_comm]
      · simp [h]
    have hmapeq : keys.map (fun k => (groupOf (r :: t) k).length) =
        keys.map (fun k => (if r.TravelDoc = k then 1 else 0) + (groupOf t k).length) :=
      List.map_congr_left (fun k _ => hsplit k)
    rw [hmapeq, sum_map_add,
      sum_indicator keys r.TravelDoc hnd (hcov r (List.mem_cons_self r t)),
      ih keys hnd (fun x hx => hcov x (List.mem_cons_of_mem r hx))]
    simp [Nat.add_comm]

/-- Claim C10: with a TravelDoc column present, `merge_duplicate_passengers`
returns exactly as many rows as it was given, for every input and every
grouping of TravelDoc values. -/
theorem claim_C10_row_count (rows : List PassengerRec) :
    (merge_duplicate_passengers true rows).1.length = rows.length := by
  show (((docKeys rows).map (fun k => (mergeGroup k (groupOf rows k)).1)).flatten).length
      = rows.length
  rw [List.length_flatten, List.map_map]
  have : (docKeys rows).map (List.length ∘ (fun k => (mergeGroup k (groupOf rows k)).1)) =
      (docKeys rows).map (fun k => (groupOf rows k).length) :=
    List.map_congr_left (fun k _ => by simp [Function.comp, mergeGroup_length])
  rw [this]
  exact length_groups rows (docKeys rows) (docKeys_nodup rows)
    (fun r hr => mem_docKeys.mpr ⟨r, hr, rfl⟩)

/-! ### Claims C1 and C2: unification, frame and divergence emission -/

theorem mergeGroup_getD {k : String} {g : List PassengerRec} {i : Nat}
    (h : i < g.length) (hk : pyStrip k ≠ "") (hl : g.length ≠ 1) :
    (mergeGroup k g).1.getD i default = unifyRec (bestRow g) (g.getD i default) := by
  have hcond : ¬(pyStrip k = "" ∨ g.length = 1) := by
    rintro (hc | hc)
    · exact hk hc
    · exact hl hc
  have hfst : (mergeGroup k g).1 = g.map (unifyRec (bestRow g)) := by
    unfold mergeGroup
    rw [if_neg hcond]
  rw [hfst]
  simp only [List.getD_eq_getElem?_getD, List.getElem?_map, List.getElem?_eq_getElem h]
  rfl

theorem mergeGroup_snd {k : String} {g : List PassengerRec}
    (hk : pyStrip k ≠ "") (hl : g.length ≠ 1) :
    (mergeGroup k g).2 = groupSusp k g := by
  have hcond : ¬(pyStrip k = "" ∨ g.length = 1) := by
    rintro (hc | hc)
    · exact hk hc
    · exact hl hc
  unfold mergeGroup
  rw [if_neg hcond]

theorem divergent_ne_nil_iff (f : PassengerRec → String) (g : List PassengerRec)
    (ref : String) :
    divergentNames (uniqueStripped f g) ref ≠ [] ↔
      ∃ r ∈ g, names_are_equivalent (f r) ref = false := by
  unfold divergentNames
  constructor
  · intro h
    obtain ⟨n, hn⟩ := List.exists_mem_of_ne_nil _ h
    have hmemf := List.mem_filter.mp hn
    have hmem := List.mem_dedup.mp hmemf.1
    rw [List.mem_map] at hmem
    obtain ⟨r, hr, hrn⟩ := hmem
    refine ⟨r, hr, ?_⟩
    have hneq := hmemf.2
    rw [Bool.not_eq_true'] at hneq
    rw [← hrn, equiv_pyStrip_left] at hneq
    exact hneq
  · rintro ⟨r, hr, hne⟩
    intro hcon
    have hmem : pyStrip (f r) ∈ uniqueStripped f g :=
      List.mem_dedup.mpr (List.mem_map.mpr ⟨r, hr, rfl⟩)
    have hall := List.filter_eq_nil_iff.mp hcon (pyStrip (f r)) hmem
    rw [equiv_pyStrip_left] at hall
    rw [hne] at hall
    simp at hall

/-- Claim C2: with no TravelDoc column the whole input is returned unchanged;
groups with an empty (stripped) key or one member pass through untouched;
in processed groups, every row whose FirstName and LastName are both
equivalent to the reference row's gets the reference's
FirstName/SecondName/LastName, and rows are otherwise byte-identical (all
remaining fields, `TravelDoc` and `other` included, are never written). -/
theorem claim_C2_unify_and_frame :
    (∀ rows : List PassengerRec, merge_duplicate_passengers false rows = (rows, []))
    ∧ (∀ (k : String) (g : List PassengerRec), pyStrip k = "" ∨ g.length = 1 →
        mergeGroup k g = (g, none))
    ∧ (∀ (k : String) (g : List PassengerRec) (i : Nat), i < g.length →
        pyStrip k ≠ "" → g.length ≠ 1 →
        (mergeGroup k g).1.getD i default =
          (if bothEquiv (bestRow g) (g.getD i default) = true
           then { (g.getD i default) with
                  FirstName := (bestRow g).FirstName,
                  LastName := (bestRow g).LastName,
                  SecondName := (bestRow g).SecondName }
           else g.getD i default)) := by
  refine ⟨fun rows => rfl, ?_, ?_⟩
  · intro k g h
    unfold mergeGroup
    rw [if_pos h]
  · intro k g i h hk hl
    rw [mergeGroup_getD h hk hl]
    rfl

/-- Witness for C2: in the P001 group, the initial `"A."` row is unified to
the most complete variant `Aleksandr Petrovich Sidorov`. -/
theorem claim_C2_witness :
    (mergeGroup "P001"
      [⟨"A.", "", "Sidorov", "P001", "F3", "", "", "", "o3"⟩,
       ⟨"Aleksandr", "Petrovich", "Sidorov", "P001", "F4", "", "", "", "o4"⟩]).1.getD 0 default
      = ⟨"Aleksandr", "Petrovich", "Sidorov", "P001", "F3", "", "", "", "o3"⟩ := by
  have h := claim_C2_unify_and_frame.2.2 "P001"
    [⟨"A.", "", "Sidorov", "P001", "F3", "", "", "", "o3"⟩,
     ⟨"Aleksandr", "Petrovich", "Sidorov", "P001", "F4", "", "", "", "o4"⟩] 0
    (by decide) (by decide) (by decide)
  rw [h]
  decide

/-- Claim C1: a processed group emits exactly one divergence entry
(`Option`-valued per group) iff some observed FirstName or LastName is not
equivalent to the reference row's; the entry carries the stripped key, both
sorted distinct name lists, the record count and the sorted deduplicated
unions of FlightNumber/DepartDate/DepartCity/Airline; rows that are not
both-equivalent keep their names; every per-group entry reaches the result
of `merge_duplicate_passengers`; and the audit file is written only when at
least one divergence was found. -/
theorem claim_C1_divergence_emission :
    (∀ (k : String) (g : List PassengerRec), pyStrip k ≠ "" → g.length ≠ 1 →
      (((mergeGroup k g).2).isSome = true ↔
        (∃ r ∈ g, names_are_equivalent r.FirstName (bestRow g).FirstName = false) ∨
        (∃ r ∈ g, names_are_equivalent r.LastName (bestRow g).LastName = false)))
    ∧ (∀ (k : String) (g : List PassengerRec) (e : SuspiciousRec),
        pyStrip k ≠ "" → g.length ≠ 1 → (mergeGroup k g).2 = some e →
        e.TravelDoc = pyStrip k ∧
        e.FirstNames = joinSorted (uniqueStripped (fun r => r.FirstName) g) ∧
        e.LastNames = joinSorted (uniqueStripped (fun r => r.LastName) g) ∧
        e.Count = g.length ∧
        e.Flights = joinSorted (uniqueStripped (fun r => r.FlightNumber) g) ∧
        e.Dates = joinSorted (uniqueStripped (fun r => r.DepartDate) g) ∧
        e.Cities = joinSorted (uniqueStripped (fun r => r.DepartCity) g) ∧
        e.Airlines = joinSorted (uniqueStripped (fun r => r.Airline) g))
    ∧ (∀ (k : String) (g : List PassengerRec) (i : Nat), i < g.length →
        pyStrip k ≠ "" → g.length ≠ 1 →
        bothEquiv (bestRow g) (g.getD i default) = false →
        (mergeGroup k g).1.getD i default = g.getD i default)
    ∧ (∀ (rows : List PassengerRec) (k : String) (e : SuspiciousRec),
        k ∈ docKeys rows → (mergeGroup k (groupOf rows k)).2 = some e →
        e ∈ (merge_duplicate_passengers true rows).2)
    ∧ (∀ (logPath : Bool) (s : List SuspiciousRec),
        audit_written logPath s = true → s ≠ []) := by
  refine ⟨?_, ?_, ?_, ?_, ?_⟩
  · intro k g hk hl
    rw [mergeGroup_snd hk hl]
    unfold groupSusp
    constructor
    · intro hsome
      by_cases hcond : divergentNames (uniqueStripped (fun r => r.FirstName) g)
          (bestRow g).FirstName ≠ [] ∨
          divergentNames (uniqueStripped (fun r => r.LastName) g)
            (bestRow g).LastName ≠ []
      · rcases hcond with hcond | hcond
        · exact Or.inl ((divergent_ne_nil_iff _ g _).mp hcond)
        · exact Or.inr ((divergent_ne_nil_iff _ g _).mp hcond)
      · rw [if_neg hcond] at hsome
        cases hsome
    · intro hex
      have hcond : divergentNames (uniqueStripped (fun r => r.FirstName) g)
          (bestRow g).FirstName ≠ [] ∨
          divergentNames (uniqueStripped (fun r => r.LastName) g)
            (bestRow g).LastName ≠ [] := by
        rcases hex with hex | hex
        · exact Or.inl ((divergent_ne_nil_iff _ g _).mpr hex)
        · exact Or.inr ((divergent_ne_nil_iff _ g _).mpr hex)
      rw [if_pos hcond]
      rfl
  · intro k g e hk hl hsome
    rw [mergeGroup_snd hk hl] at hsome
    unfold groupSusp at hsome
    split at hsome
    · injection hsome with he
      rw [← he]
      exact ⟨rfl, rfl, rfl, rfl, rfl, rfl, rfl, rfl⟩
    · cases hsome
  · intro k g i h hk hl hne
    rw [mergeGroup_getD h hk hl]
    unfold unifyRec
    rw [hne]
    simp
  · intro rows k e hk hsome
    show e ∈ (docKeys rows).filterMap (fun k => (mergeGroup k (groupOf rows k)).2)
    exact List.mem_filterMap.mpr ⟨k, hk, hsome⟩
  · intro logPath s h
    unfold audit_written at h
    rcases Bool.and_eq_true _ _ |>.mp h with ⟨-, h2⟩
    intro hcon
    rw [hcon] at h2
    cases h2

/-- Witness for C1: the P002 group (`Ivanov` vs `Petrov`) emits an entry. -/
theorem claim_C1_witness :
    ((mergeGroup "P002"
      [⟨"Ivan", "", "Ivanov", "P002", "F1", "2024-01-01", "Moscow", "SU", "o1"⟩,
       ⟨"Ivan", "", "Petrov", "P002", "F2", "2024-01-02", "Kazan", "S7", "o2"⟩]).2).isSome
      = true := by
  have h := claim_C1_divergence_emission.1 "P002"
    [⟨"Ivan", "", "Ivanov", "P002", "F1", "2024-01-01", "Moscow", "SU", "o1"⟩,
     ⟨"Ivan", "", "Petrov", "P002", "F2", "2024-01-02", "Kazan", "S7", "o2"⟩]
    (by decide) (by decide)
  rw [h]
  exact Or.inr ⟨⟨"Ivan", "", "Petrov", "P002", "F2", "2024-01-02", "Kazan", "S7", "o2"⟩,
    by decide, by decide⟩

/-! ### Idempotence of the merge (claim C9): score and reference lemmas -/

theorem natMax_zero (n : Nat) : Nat.max 0 n = n := by
  simp only [Nat.max_def]
  split_ifs <;> omega

theorem natMax_assoc (a b c : Nat) : (a.max b).max c = a.max (b.max c) := by
  simp only [Nat.max_def]
  split_ifs <;> omega

theorem natMax_le_left (a b : Nat) : a ≤ a.max b := by
  simp only [Nat.max_def]
  split_ifs <;> omega

theorem natMax_le_right (a b : Nat) : b ≤ a.max b := by
  simp only [Nat.max_def]
  split_ifs <;> omega

theorem natMax_eq_right {a b : Nat} (h : a ≤ b) : a.max b = b := by
  simp only [Nat.max_def]
  rw [if_pos h]

theorem natMax_eq_left {a b : Nat} (h : b ≤ a) : a.max b = a := by
  simp only [Nat.max_def]
  split_ifs <;> omega

theorem natMax_le_intro {a b c : Nat} (h1 : a ≤ c) (h2 : b ≤ c) : a.max b ≤ c := by
  simp only [Nat.max_def]
  split_ifs <;> omega

theorem foldl_max_shift (l : List Nat) (a : Nat) :
    l.foldl Nat.max a = Nat.max a (l.foldl Nat.max 0) := by
  induction l generalizing a with
  | nil => simp
  | cons x t ih =>
    simp only [List.foldl_cons]
    rw [ih (Nat.max a x), ih (Nat.max 0 x), natMax_zero, natMax_assoc]

theorem le_foldl_max (l : List Nat) : ∀ x ∈ l, x ≤ l.foldl Nat.max 0 := by
  induction l with
  | nil => intro x hx; cases hx
  | cons a t ih =>
    intro x hx
    rw [List.foldl_cons, foldl_max_shift, natMax_zero]
    rcases List.mem_cons.mp hx with rfl | hx2
    · exact natMax_le_left _ _
    · exact Nat.le_trans (ih x hx2) (natMax_le_right _ _)

theorem foldl_max_mem (l : List Nat) (h : l ≠ []) : l.foldl Nat.max 0 ∈ l := by
  induction l with
  | nil => exact absurd rfl h
  | cons a t ih =>
    rw [List.foldl_cons, foldl_max_shift, natMax_zero]
    cases t with
    | nil => simp
    | cons b s =>
      have hmem := ih (by simp)
      rcases Nat.le_total a ((b :: s).foldl Nat.max 0) with hle | hle
      · rw [natMax_eq_right hle]
        exact List.mem_cons_of_mem a hmem
      · rw [natMax_eq_left hle]
        exact List.mem_cons_self a _

theorem foldl_max_le {l : List Nat} {c : Nat} (h : ∀ x ∈ l, x ≤ c) :
    l.foldl Nat.max 0 ≤ c := by
  induction l with
  | nil => exact Nat.zero_le c
  | cons a t ih =>
    rw [List.foldl_cons, foldl_max_shift, natMax_zero]
    exact natMax_le_intro (h a (List.mem_cons_self _ _))
      (ih (fun x hx => h x (List.mem_cons_of_mem a hx)))

theorem maxScore_mem {g : List PassengerRec} (h : g ≠ []) :
    ∃ r ∈ g, scoreRec r = maxScore g := by
  unfold maxScore
  have hmem := foldl_max_mem (g.map scoreRec) (by simpa using h)
  rw [List.mem_map] at hmem
  obtain ⟨r, hr, he⟩ := hmem
  exact ⟨r, hr, he⟩

theorem scoreRec_le_maxScore {g : List PassengerRec} {r : PassengerRec} (hr : r ∈ g) :
    scoreRec r ≤ maxScore g :=
  le_foldl_max _ _ (List.mem_map_of_mem _ hr)

theorem bestRow_spec {g : List PassengerRec} (h : g ≠ []) :
    g.find? (fun r => scoreRec r == maxScore g) = some (bestRow g) ∧
    bestRow g ∈ g ∧ scoreRec (bestRow g) = maxScore g := by
  obtain ⟨r, hr, he⟩ := maxScore_mem h
  have hsome : (g.find? (fun r => scoreRec r == maxScore g)).isSome := by
    rw [List.find?_isSome]
    exact ⟨r, hr, by simp [he]⟩
  obtain ⟨b, hb⟩ := Option.isSome_iff_exists.mp hsome
  have hbr : bestRow g = b := by
    unfold bestRow
    rw [hb]
    rfl
  refine ⟨by rw [hb, hbr], ?_, ?_⟩
  · rw [hbr]
    exact List.mem_of_find?_eq_some hb
  · rw [hbr]
    have := List.find?_some hb
    simpa using this

theorem unifyRec_self (b : PassengerRec) : unifyRec b b = b := by
  unfold unifyRec
  split
  · rfl
  · rfl

theorem scoreRec_unifyRec (b r : PassengerRec) :
    scoreRec (unifyRec b r) = if bothEquiv b r = true then scoreRec b else scoreRec r := by
  unfold unifyRec
  cases h : bothEquiv b r
  · simp [h]
  · simp only [h, if_pos]
    rfl

theorem unifyRec_travelDoc (b r : PassengerRec) :
    (unifyRec b r).TravelDoc = r.TravelDoc := by
  unfold unifyRec
  split
  · rfl
  · rfl

theorem unifyRec_other (b r : PassengerRec) : (unifyRec b r).other = r.other := by
  unfold unifyRec
  split
  · rfl
  · rfl

theorem maxScore_unify {g : List PassengerRec} (h : g ≠ []) :
    maxScore (g.map (unifyRec (bestRow g))) = maxScore g := by
  obtain ⟨-, hbmem, hbscore⟩ := bestRow_spec h
  apply Nat.le_antisymm
  · apply foldl_max_le
    intro x hx
    rw [List.map_map, List.mem_map] at hx
    obtain ⟨r, hr, rfl⟩ := hx
    show scoreRec (unifyRec (bestRow g) r) ≤ maxScore g
    rw [scoreRec_unifyRec]
    split
    · rw [hbscore]
    · exact scoreRec_le_maxScore hr
  · rw [← hbscore]
    have hmem : unifyRec (bestRow g) (bestRow g) ∈ g.map (unifyRec (bestRow g)) :=
      List.mem_map_of_mem _ hbmem
    rw [unifyRec_self] at hmem
    exact scoreRec_le_maxScore hmem

/-- Unifying a group does not change which name triple the first maximal-score
row carries: the element found by `find?` after unification has the reference
row's FirstName, SecondName and LastName. -/
theorem find?_unify {c : Nat} {b : PassengerRec} (hb : scoreRec b = c) :
    ∀ (g : List PassengerRec), g.find? (fun r => scoreRec r == c) = some b →
    ∃ res, (g.map (unifyRec b)).find? (fun r => scoreRec r == c) = some res ∧
      res.FirstName = b.FirstName ∧ res.SecondName = b.SecondName ∧
      res.LastName = b.LastName := by
  intro g
  induction g with
  | nil => intro h; cases h
  | cons r t ih =>
    intro h
    cases hp : (scoreRec r == c) with
    | true =>
      rw [@List.find?_cons_of_pos _ (fun x => scoreRec x == c) r t hp] at h
      injection h with h
      subst h
      refine ⟨r, ?_, rfl, rfl, rfl⟩
      rw [List.map_cons]
      rw [@List.find?_cons_of_pos _ (fun x => scoreRec x == c) (unifyRec r r)
        (t.map (unifyRec r)) (by rw [unifyRec_self]; exact hp), unifyRec_self]
    | false =>
      rw [@List.find?_cons_of_neg _ (fun x => scoreRec x == c) r t (by simp [hp])] at h
      rw [List.map_cons]
      by_cases hq : (scoreRec (unifyRec b r) == c) = true
      · refine ⟨unifyRec b r, @List.find?_cons_of_pos _ (fun x => scoreRec x == c)
          (unifyRec b r) (t.map (unifyRec b)) hq, ?_⟩
        cases hbe : bothEquiv b r with
        | true => simp [unifyRec, hbe]
        | false =>
          exfalso
          have hur : unifyRec b r = r := by simp [unifyRec, hbe]
          rw [hur, hp] at hq
          cases hq
      · obtain ⟨res, hres, hn⟩ := ih h
        exact ⟨res, by
          rw [@List.find?_cons_of_neg _ (fun x => scoreRec x == c) (unifyRec b r)
            (t.map (unifyRec b)) (by simpa using hq)]
          exact hres, hn⟩

theorem bestRow_unify {g : List PassengerRec} (h : g ≠ []) :
    (bestRow (g.map (unifyRec (bestRow g)))).FirstName = (bestRow g).FirstName ∧
    (bestRow (g.map (unifyRec (bestRow g)))).SecondName = (bestRow g).SecondName ∧
    (bestRow (g.map (unifyRec (bestRow g)))).LastName = (bestRow g).LastName := by
  obtain ⟨hfind, hbmem, hbscore⟩ := bestRow_spec h
  obtain ⟨res, hres, hn⟩ := find?_unify hbscore g hfind
  have hmax := maxScore_unify h
  set b := bestRow g with hbdef
  have : bestRow (g.map (unifyRec b)) = res := by
    unfold bestRow
    rw [hmax, hres]
    rfl
  rw [this]
  exact hn

theorem bothEquiv_congr {b b2 : PassengerRec} (hF : b2.FirstName = b.FirstName)
    (hL : b2.LastName = b.LastName) (r : PassengerRec) :
    bothEquiv b2 r = bothEquiv b r := by
  unfold bothEquiv
  rw [hF, hL]

theorem unifyRec_idem {b b2 r : PassengerRec} (hF : b2.FirstName = b.FirstName)
    (hS : b2.SecondName = b.SecondName) (hL : b2.LastName = b.LastName) :
    unifyRec b2 (unifyRec b r) = unifyRec b r := by
  cases hbe : bothEquiv b r with
  | false =>
    have h1 : unifyRec b r = r := by
      simp [unifyRec, hbe]
    rw [h1]
    unfold unifyRec
    rw [bothEquiv_congr hF hL, hbe]
    simp
  | true =>
    have h1 : unifyRec b r = { r with
        FirstName := b.FirstName, LastName := b.LastName, SecondName := b.SecondName } := by
      simp [unifyRec, hbe]
    rw [h1]
    have hcond : bothEquiv b2 { r with
        FirstName := b.FirstName, LastName := b.LastName, SecondName := b.SecondName } = true := by
      rw [bothEquiv_congr hF hL]
      unfold bothEquiv at hbe ⊢
      rcases (Bool.and_eq_true _ _).mp hbe with ⟨he1, he2⟩
      show (names_are_equivalent b.FirstName b.FirstName &&
        names_are_equivalent b.LastName b.LastName) = true
      rw [Bool.and_eq_true]
      exact ⟨equiv_right_self he1, equiv_right_self he2⟩
    simp only [unifyRec, hcond, if_pos]
    rw [hF, hS, hL]

/-- Applying the per-group merge to its own row output changes nothing. -/
theorem mergeGroup_rows_idem (k : String) (g : List PassengerRec) :
    (mergeGroup k ((mergeGroup k g).1)).1 = (mergeGroup k g).1 := by
  by_cases hc : pyStrip k = "" ∨ g.length = 1
  · have h1 : mergeGroup k g = (g, none) := by
      unfold mergeGroup
      rw [if_pos hc]
    rw [h1]
    show (mergeGroup k g).1 = g
    rw [h1]
  · have hk : pyStrip k ≠ "" := fun h => hc (Or.inl h)
    cases g with
    | nil => simp [mergeGroup, hk]
    | cons r0 t0 =>
      have hne : (r0 :: t0) ≠ [] := by simp
      have hfst : (mergeGroup k (r0 :: t0)).1 = (r0 :: t0).map (unifyRec (bestRow (r0 :: t0))) := by
        unfold mergeGroup
        rw [if_neg hc]
      have hlen : ((r0 :: t0).map (unifyRec (bestRow (r0 :: t0)))).length = (r0 :: t0).length := by
        simp
      have hc2 : ¬(pyStrip k = "" ∨
          ((r0 :: t0).map (unifyRec (bestRow (r0 :: t0)))).length = 1) := by
        rw [hlen]
        exact hc
      rw [hfst]
      have hfst2 : (mergeGroup k ((r0 :: t0).map (unifyRec (bestRow (r0 :: t0))))).1 =
          ((r0 :: t0).map (unifyRec (bestRow (r0 :: t0)))).map
            (unifyRec (bestRow ((r0 :: t0).map (unifyRec (bestRow (r0 :: t0)))))) := by
        unfold mergeGroup
        rw [if_neg hc2]
      rw [hfst2]
      obtain ⟨hF, hS, hL⟩ := bestRow_unify hne
      rw [List.map_map]
      apply List.map_congr_left
      intro r hr
      show unifyRec _ (unifyRec (bestRow (r0 :: t0)) r) = unifyRec (bestRow (r0 :: t0)) r
      exact unifyRec_idem hF hS hL

theorem all_equiv_of_divergent_nil {f : PassengerRec → String} {g : List PassengerRec}
    {ref : String} (h : divergentNames (uniqueStripped f g) ref = []) :
    ∀ r ∈ g, names_are_equivalent (f r) ref = true := by
  intro r hr
  have hmem : pyStrip (f r) ∈ uniqueStripped f g :=
    List.mem_dedup.mpr (List.mem_map.mpr ⟨r, hr, rfl⟩)
  have hno := List.filter_eq_nil_iff.mp h _ hmem
  cases hx : names_are_equivalent (pyStrip (f r)) ref with
  | true =>
    rw [← equiv_pyStrip_left]
    exact hx
  | false => exact absurd (by simp [hx] : (!names_are_equivalent (pyStrip (f r)) ref) = true) hno

theorem dedup_const : ∀ (l : List String) (a : String), l ≠ [] → (∀ x ∈ l, x = a) →
    l.dedup = [a] := by
  intro l
  induction l with
  | nil => intro a h _; exact absurd rfl h
  | cons x t ih =>
    intro a _ hall
    have hxa : x = a := hall x (by simp)
    subst hxa
    cases t with
    | nil => rfl
    | cons y s =>
      have hy : y = x := hall y (by simp)
      have hmem : x ∈ y :: s := by
        rw [hy]
        simp
      rw [List.dedup_cons_of_mem hmem]
      exact ih x (by simp) (fun z hz => hall z (List.mem_cons_of_mem x hz))

/-- If a processed group emitted no divergence, re-processing its unified
rows emits none either. -/
theorem mergeGroup_susp_idem (k : String) (g : List PassengerRec)
    (hnone : (mergeGroup k g).2 = none) :
    (mergeGroup k ((mergeGroup k g).1)).2 = none := by
  by_cases hc : pyStrip k = "" ∨ g.length = 1
  · have h1 : mergeGroup k g = (g, none) := by
      unfold mergeGroup
      rw [if_pos hc]
    rw [h1]
    show (mergeGroup k g).2 = none
    rw [h1]
  · have hk : pyStrip k ≠ "" := fun h => hc (Or.inl h)
    cases g with
    | nil => simp [mergeGroup, hk, groupSusp, divergentNames, uniqueStripped]
    | cons r0 t0 =>
      have hne : (r0 :: t0) ≠ [] := by simp
      have hl : (r0 :: t0).length ≠ 1 := fun h => hc (Or.inr h)
      rw [mergeGroup_snd hk hl] at hnone
      have hcond : ¬(divergentNames (uniqueStripped (fun r => r.FirstName) (r0 :: t0))
          (bestRow (r0 :: t0)).FirstName ≠ [] ∨
          divergentNames (uniqueStripped (fun r => r.LastName) (r0 :: t0))
            (bestRow (r0 :: t0)).LastName ≠ []) := by
        intro hcon
        unfold groupSusp at hnone
        rw [if_pos hcon] at hnone
        cases hnone
      have hdF : divergentNames (uniqueStripped (fun r => r.FirstName) (r0 :: t0))
          (bestRow (r0 :: t0)).FirstName = [] := by
        by_cases hx : divergentNames (uniqueStripped (fun r => r.FirstName) (r0 :: t0))
            (bestRow (r0 :: t0)).FirstName = []
        · exact hx
        · exact absurd (Or.inl hx) hcond
      have hdL : divergentNames (uniqueStripped (fun r => r.LastName) (r0 :: t0))
          (bestRow (r0 :: t0)).LastName = [] := by
        by_cases hx : divergentNames (uniqueStripped (fun r => r.LastName) (r0 :: t0))
            (bestRow (r0 :: t0)).LastName = []
        · exact hx
        · exact absurd (Or.inr hx) hcond
      have hallF := all_equiv_of_divergent_nil hdF
      have hallL := all_equiv_of_divergent_nil hdL
      have hboth : ∀ r ∈ (r0 :: t0), bothEquiv (bestRow (r0 :: t0)) r = true := by
        intro r hr
        unfold bothEquiv
        rw [Bool.and_eq_true]
        exact ⟨hallF r hr, hallL r hr⟩
      have hfield : ∀ x ∈ (r0 :: t0).map (unifyRec (bestRow (r0 :: t0))),
          x.FirstName = (bestRow (r0 :: t0)).FirstName ∧
          x.LastName = (bestRow (r0 :: t0)).LastName := by
        intro x hx
        rw [List.mem_map] at hx
        obtain ⟨r, hr, rfl⟩ := hx
        rw [show unifyRec (bestRow (r0 :: t0)) r = { r with
            FirstName := (bestRow (r0 :: t0)).FirstName,
            LastName := (bestRow (r0 :: t0)).LastName,
            SecondName := (bestRow (r0 :: t0)).SecondName } from by
          simp [unifyRec, hboth r hr]]
        exact ⟨rfl, rfl⟩
      have hfst : (mergeGroup k (r0 :: t0)).1 =
          (r0 :: t0).map (unifyRec (bestRow (r0 :: t0))) := by
        unfold mergeGroup
        rw [if_neg (fun hcon => hc hcon)]
      obtain ⟨hF, hS, hL⟩ := bestRow_unify hne
      have heqvF : names_are_equivalent (pyStrip (bestRow (r0 :: t0)).FirstName)
          (bestRow (r0 :: t0)).FirstName = true := by
        rw [equiv_pyStrip_left]
        exact equiv_right_self (hallF r0 (by simp))
      have heqvL : names_are_equivalent (pyStrip (bestRow (r0 :: t0)).LastName)
          (bestRow (r0 :: t0)).LastName = true := by
        rw [equiv_pyStrip_left]
        exact equiv_right_self (hallL r0 (by simp))
      have hdedupF : uniqueStripped (fun r => r.FirstName)
          ((r0 :: t0).map (unifyRec (bestRow (r0 :: t0)))) =
          [pyStrip (bestRow (r0 :: t0)).FirstName] := by
        unfold uniqueStripped
        apply dedup_const
        · simp
        · intro y hy
          rw [List.mem_map] at hy
          obtain ⟨x, hx, rfl⟩ := hy
          show pyStrip x.FirstName = pyStrip (bestRow (r0 :: t0)).FirstName
          rw [(hfield x hx).1]
      have hdedupL : uniqueStripped (fun r => r.LastName)
          ((r0 :: t0).map (unifyRec (bestRow (r0 :: t0)))) =
          [pyStrip (bestRow (r0 :: t0)).LastName] := by
        unfold uniqueStripped
        apply dedup_const
        · simp
        · intro y hy
          rw [List.mem_map] at hy
          obtain ⟨x, hx, rfl⟩ := hy
          show pyStrip x.LastName = pyStrip (bestRow (r0 :: t0)).LastName
          rw [(hfield x hx).2]
      rw [hfst]
      have hl2 : ((r0 :: t0).map (unifyRec (bestRow (r0 :: t0)))).length ≠ 1 := by
        rw [List.length_map]
        exact hl
      rw [mergeGroup_snd hk hl2]
      unfold groupSusp
      rw [if_neg]
      rintro (hcon | hcon)
      · apply hcon
        rw [hdedupF]
        unfold divergentNames
        rw [show (bestRow ((r0 :: t0).map (unifyRec (bestRow (r0 :: t0))))).FirstName =
          (bestRow (r0 :: t0)).FirstName from hF]
        simp [heqvF]
      · apply hcon
        rw [hdedupL]
        unfold divergentNames
        rw [show (bestRow ((r0 :: t0).map (unifyRec (bestRow (r0 :: t0))))).LastName =
          (bestRow (r0 :: t0)).LastName from hL]
        simp [heqvL]

theorem mergeGroup_susp_doc {k : String} {g : List PassengerRec} {e : SuspiciousRec}
    (h : (mergeGroup k g).2 = some e) : e.TravelDoc = pyStrip k := by
  unfold mergeGroup at h
  split at h
  · cases h
  · unfold groupSusp at h
    split at h
    · injection h with h
      rw [← h]
    · cases h

theorem groupOf_docs (rows : List PassengerRec) (k : String) :
    ∀ r ∈ groupOf rows k, r.TravelDoc = k := by
  intro r hr
  have h := (List.mem_filter.mp hr).2
  simpa using h

theorem mergeGroup_docs {k : String} {g : List PassengerRec}
    (hdoc : ∀ r ∈ g, r.TravelDoc = k) :
    ∀ x ∈ (mergeGroup k g).1, x.TravelDoc = k := by
  intro x hx
  unfold mergeGroup at hx
  split at hx
  · exact hdoc x hx
  · obtain ⟨r, hr, rfl⟩ := List.mem_map.mp hx
    rw [unifyRec_travelDoc]
    exact hdoc r hr

theorem filter_flatten_groups (keys : List String) (f : String → List PassengerRec)
    (k : String) (hnd : keys.Nodup) (hk : k ∈ keys)
    (hdocs : ∀ k2 ∈ keys, ∀ r ∈ f k2, r.TravelDoc = k2) :
    ((keys.map f).flatten.filter (fun r => r.TravelDoc == k)) = f k := by
  induction keys with
  | nil => cases hk
  | cons a t ih =>
    rw [List.map_cons, List.flatten_cons, List.filter_append]
    rcases List.mem_cons.mp hk with rfl | hk2
    · have hfa : (f k).filter (fun r => r.TravelDoc == k) = f k := by
        rw [List.filter_eq_self]
        intro r hr
        simp [hdocs k (by simp) r hr]
      have hrest : (t.map f).flatten.filter (fun r => r.TravelDoc == k) = [] := by
        rw [List.filter_eq_nil_iff]
        intro r hr
        rw [List.mem_flatten] at hr
        obtain ⟨l, hl, hrl⟩ := hr
        rw [List.mem_map] at hl
        obtain ⟨k2, hk2, rfl⟩ := hl
        have hd : r.TravelDoc = k2 := hdocs k2 (by simp [hk2]) r hrl
        have hne : k2 ≠ k := by
          rintro rfl
          exact (List.nodup_cons.mp hnd).1 hk2
        simp [hd, hne]
      rw [hfa, hrest, List.append_nil]
    · have hne : a ≠ k := by
        rintro rfl
        exact (List.nodup_cons.mp hnd).1 hk2
      have hfa : (f a).filter (fun r => r.TravelDoc == k) = [] := by
        rw [List.filter_eq_nil_iff]
        intro r hr
        have hd : r.TravelDoc = a := hdocs a (by simp) r hr
        simp [hd, hne]
      rw [hfa, List.nil_append]
      exact ih (List.nodup_cons.mp hnd).2 hk2
        (fun k2 h2 => hdocs k2 (List.mem_cons_of_mem a h2))

theorem docKeys_merge (rows : List PassengerRec) :
    docKeys (merge_duplicate_passengers true rows).1 = docKeys rows := by
  have hmem : ∀ k, k ∈ docKeys (merge_duplicate_passengers true rows).1 ↔
      k ∈ docKeys rows := by
    intro k
    rw [mem_docKeys, mem_docKeys]
    constructor
    · rintro ⟨x, hx, rfl⟩
      have hx2 : x ∈ ((docKeys rows).map
          (fun k2 => (mergeGroup k2 (groupOf rows k2)).1)).flatten := hx
      rw [List.mem_flatten] at hx2
      obtain ⟨l, hl, hxl⟩ := hx2
      rw [List.mem_map] at hl
      obtain ⟨k2, hk2, rfl⟩ := hl
      have hdoc : x.TravelDoc = k2 := mergeGroup_docs (groupOf_docs rows k2) x hxl
      rw [hdoc]
      exact mem_docKeys.mp hk2
    · rintro ⟨r, hr, rfl⟩
      have hk : r.TravelDoc ∈ docKeys rows := mem_docKeys.mpr ⟨r, hr, rfl⟩
      have hlenne : (mergeGroup r.TravelDoc (groupOf rows r.TravelDoc)).1 ≠ [] := by
        intro hcon
        have h1 := mergeGroup_length r.TravelDoc (groupOf rows r.TravelDoc)
        rw [hcon] at h1
        have hrmem : r ∈ groupOf rows r.TravelDoc :=
          List.mem_filter.mpr ⟨hr, by simp⟩
        rw [List.eq_nil_of_length_eq_zero h1.symm] at hrmem
        cases hrmem
      obtain ⟨x, hxmem⟩ := List.exists_mem_of_ne_nil _ hlenne
      refine ⟨x, ?_, ?_⟩
      · show x ∈ ((docKeys rows).map
          (fun k2 => (mergeGroup k2 (groupOf rows k2)).1)).flatten
        rw [List.mem_flatten]
        exact ⟨(mergeGroup r.TravelDoc (groupOf rows r.TravelDoc)).1,
          List.mem_map.mpr ⟨r.TravelDoc, hk, rfl⟩, hxmem⟩
      · exact mergeGroup_docs (groupOf_docs rows r.TravelDoc) x hxmem
  exact List.eq_of_perm_of_sorted
    ((List.perm_ext_iff_of_nodup (docKeys_nodup _) (docKeys_nodup _)).mpr hmem)
    (docKeys_sorted _) (docKeys_sorted _)

/-- Claim C9: `mergeDuplicates` is idempotent — re-running the merge on its
own output leaves every record unchanged, and every divergence reported by
the second pass is for a TravelDoc already reported by the first pass. -/
theorem claim_C9_merge_idempotent (rows : List PassengerRec) :
    (merge_duplicate_passengers true ((merge_duplicate_passengers true rows).1)).1 =
      (merge_duplicate_passengers true rows).1 ∧
    ∀ e ∈ (merge_duplicate_passengers true ((merge_duplicate_passengers true rows).1)).2,
      ∃ e2 ∈ (merge_duplicate_passengers true rows).2, e2.TravelDoc = e.TravelDoc := by
  have hkeys : docKeys (merge_duplicate_passengers true rows).1 = docKeys rows :=
    docKeys_merge rows
  have hgroup : ∀ k ∈ docKeys rows,
      groupOf (merge_duplicate_passengers true rows).1 k =
        (mergeGroup k (groupOf rows k)).1 := by
    intro k hk
    show ((docKeys rows).map
        (fun k2 => (mergeGroup k2 (groupOf rows k2)).1)).flatten.filter
          (fun r => r.TravelDoc == k) = _
    exact filter_flatten_groups (docKeys rows)
      (fun k2 => (mergeGroup k2 (groupOf rows k2)).1) k (docKeys_nodup rows) hk
      (fun k2 _ r hr => mergeGroup_docs (groupOf_docs rows k2) r hr)
  constructor
  · show ((docKeys (merge_duplicate_passengers true rows).1).map
        (fun k => (mergeGroup k (groupOf (merge_duplicate_passengers true rows).1 k)).1)).flatten
      = (merge_duplicate_passengers true rows).1
    rw [hkeys]
    have hcongr : (docKeys rows).map
        (fun k => (mergeGroup k (groupOf (merge_duplicate_passengers true rows).1 k)).1) =
        (docKeys rows).map (fun k => (mergeGroup k (groupOf rows k)).1) := by
      apply List.map_congr_left
      intro k hk
      rw [hgroup k hk]
      exact mergeGroup_rows_idem k (groupOf rows k)
    rw [hcongr]
    rfl
  · intro e he
    have he2 : e ∈ (docKeys (merge_duplicate_passengers true rows).1).filterMap
        (fun k => (mergeGroup k (groupOf (merge_duplicate_passengers true rows).1 k)).2) := he
    rw [List.mem_filterMap] at he2
    obtain ⟨k, hk, hsome⟩ := he2
    rw [hkeys] at hk
    rw [hgroup k hk] at hsome
    cases hfirst : (mergeGroup k (groupOf rows k)).2 with
    | none =>
      rw [mergeGroup_susp_idem k (groupOf rows k) hfirst] at hsome
      cases hsome
    | some e2 =>
      refine ⟨e2, ?_, ?_⟩
      · show e2 ∈ (docKeys rows).filterMap
          (fun k2 => (mergeGroup k2 (groupOf rows k2)).2)
        exact List.mem_filterMap.mpr ⟨k, hk, hfirst⟩
      · rw [mergeGroup_susp_doc hfirst, mergeGroup_susp_doc hsome]

/-- Rows of the P002 divergence scenario, used by the C9 witness. -/
def rowIvanov : PassengerRec :=
  ⟨"Ivan", "", "Ivanov", "P002", "F1", "2024-01-01", "Moscow", "SU", "o1"⟩

def rowPetrov : PassengerRec :=
  ⟨"Ivan", "", "Petrov", "P002", "F2", "2024-01-02", "Kazan", "S7", "o2"⟩

/-- Witness for C9: on the P002 pair the second pass changes nothing, and its
reported divergence is for a document the first pass already reported. -/
theorem claim_C9_witness :
    (merge_duplicate_passengers true
        ((merge_duplicate_passengers true [rowIvanov, rowPetrov]).1)).1 =
      (merge_duplicate_passengers true [rowIvanov, rowPetrov]).1 ∧
    ∃ e2 ∈ (merge_duplicate_passengers true [rowIvanov, rowPetrov]).2,
      e2.TravelDoc = "P002" := by
  have h := claim_C9_merge_idempotent [rowIvanov, rowPetrov]
  refine ⟨h.1, ?_⟩
  obtain ⟨e2, he2, hdoc⟩ := h.2
    ⟨"P002", "Ivan", "Ivanov, Petrov", 2, "F1, F2", "2024-01-01, 2024-01-02",
      "Kazan, Moscow", "S7, SU"⟩ (by decide)
  exact ⟨e2, he2, by rw [hdoc]⟩

end DyuminOneLove
